/-
Verification of the netrunner network orchestrator against its
natural-language specification.

The Go sources are shallowly embedded: strings are modelled either as Lean
`String` or as their UTF-8 byte lists (`List Nat`), Go maps as association
lists, Go slices as lists, machine integers as `Nat`/`Int` with explicit
wrap where a Go conversion wraps, and fallible Go functions as
`Option`/`Except`-returning Lean functions.
-/
import Mathlib

namespace Netrunner

/-! ## VM-ID derivation (utils/utils.go, `VMID`)

A Go string is its UTF-8 byte sequence; `len` on a Go string is the byte
length, and `copy(b, []byte(vmName))` copies those bytes.  We therefore
model a VM name as its byte list. -/

/-- Function `VMID` from utils/utils.go: reject names longer than 32 bytes, else
right-pad the bytes with zeros to exactly 32 bytes (`b := make([]byte, 32);
copy(b, []byte(vmName))`).  `ids.ToID` on a 32-byte slice always succeeds,
so the only failure is the length check. -/
def VMID (vmName : List Nat) : Option (List Nat) :=
  if vmName.length > 32 then none
  else some (vmName ++ List.replicate (32 - vmName.length) 0)

/-- Strip trailing zero bytes, used to state injectivity of `VMID` up to
trailing-zero padding. -/
def dropTrailingZeros (bs : List Nat) : List Nat :=
  (bs.reverse.dropWhile (fun b => b = 0)).reverse

theorem dropWhile_replicate_append (k : Nat) (l : List Nat) :
    (List.replicate k 0 ++ l).dropWhile (fun b => b = 0) =
      l.dropWhile (fun b => b = 0) := by
  induction k with
  | zero => simp
  | succ k ih => simp [List.replicate_succ, List.dropWhile, ih]

theorem dropTrailingZeros_append_replicate (a : List Nat) (k : Nat) :
    dropTrailingZeros (a ++ List.replicate k 0) = dropTrailingZeros a := by
  unfold dropTrailingZeros
  rw [List.reverse_append, List.reverse_replicate, dropWhile_replicate_append]

/-- Claim C1: for every name of byte length at most 32, `VMID` succeeds and
returns the 32-byte right-zero-padded copy of the name; longer names are
rejected; `VMID` is deterministic; and it is injective on names of length
at most 32 bytes that differ after ignoring trailing zero bytes. -/
theorem C1_vmID_correct :
    (∀ name : List Nat, name.length ≤ 32 →
        VMID name = some (name ++ List.replicate (32 - name.length) 0) ∧
        ∀ r, VMID name = some r → r.length = 32) ∧
    (∀ name : List Nat, 32 < name.length → VMID name = none) ∧
    (∀ name : List Nat, VMID name = VMID name) ∧
    (∀ a b : List Nat, a.length ≤ 32 → b.length ≤ 32 →
        dropTrailingZeros a ≠ dropTrailingZeros b → VMID a ≠ VMID b) := by
  refine ⟨?_, ?_, ?_, ?_⟩
  · intro name h
    have hnot : ¬ name.length > 32 := by omega
    constructor
    · simp [VMID, hnot]
    · intro r hr
      simp only [VMID, hnot, if_false, Option.some.injEq] at hr
      subst hr
      simp [List.length_append, List.length_replicate]
      omega
  · intro name h
    simp [VMID, h]
  · intro name; rfl
  · intro a b ha hb hne heq
    have hna : ¬ a.length > 32 := by omega
    have hnb : ¬ b.length > 32 := by omega
    simp only [VMID, hna, hnb, if_false, Option.some.injEq] at heq
    apply hne
    have := congrArg dropTrailingZeros heq
    rwa [dropTrailingZeros_append_replicate, dropTrailingZeros_append_replicate] at this

/-- Witness for C1 at concrete inputs: the two-byte name `[104, 105]`
("hi") is padded to 32 bytes, and a 33-byte name is rejected. -/
theorem C1_vmID_correct_witness :
    VMID [104, 105] = some ([104, 105] ++ List.replicate 30 0) ∧
    VMID (List.replicate 33 1) = none :=
  ⟨(C1_vmID_correct.1 [104, 105] (by decide)).1,
   C1_vmID_correct.2.1 (List.replicate 33 1) (by simp)⟩

/-! ## Byte-wise string order

Go's `sort.Strings` orders strings by their bytes; on UTF-8 data this
agrees with ordering the Unicode scalar values, so we compare the
character lists of Lean strings.  The comparison is written so that it
evaluates inside the kernel (core `String.ltb` does not). -/

/-- Lexicographic order on character lists, by Unicode scalar value. -/
def charListLeb : List Char → List Char → Bool
  | [], _ => true
  | _ :: _, [] => false
  | a :: as, b :: bs =>
    if a.toNat < b.toNat then true
    else if b.toNat < a.toNat then false
    else charListLeb as bs

theorem charListLeb_cons_iff {a b : Char} {as bs : List Char} :
    charListLeb (a :: as) (b :: bs) = true ↔
      a.toNat < b.toNat ∨ (a.toNat = b.toNat ∧ charListLeb as bs = true) := by
  by_cases h1 : a.toNat < b.toNat
  · simp [charListLeb, h1]
  · by_cases h2 : b.toNat < a.toNat
    · simp [charListLeb, h1, h2]; omega
    · have h3 : a.toNat = b.toNat := by omega
      simp [charListLeb, h1, h2, h3]

theorem charToNat_inj {a b : Char} (h : a.toNat = b.toNat) : a = b :=
  Char.eq_of_val_eq (UInt32.eq_of_toBitVec_eq (BitVec.eq_of_toNat_eq h))

theorem charListLeb_total (as bs : List Char) :
    charListLeb as bs = true ∨ charListLeb bs as = true := by
  induction as generalizing bs with
  | nil => left; rfl
  | cons a as ih =>
    cases bs with
    | nil => right; rfl
    | cons b bs =>
      rcases ih bs with h | h
      · by_cases h1 : a.toNat < b.toNat
        · left; exact charListLeb_cons_iff.mpr (Or.inl h1)
        · by_cases h2 : b.toNat < a.toNat
          · right; exact charListLeb_cons_iff.mpr (Or.inl h2)
          · left; exact charListLeb_cons_iff.mpr (Or.inr ⟨by omega, h⟩)
      · by_cases h1 : a.toNat < b.toNat
        · left; exact charListLeb_cons_iff.mpr (Or.inl h1)
        · by_cases h2 : b.toNat < a.toNat
          · right; exact charListLeb_cons_iff.mpr (Or.inl h2)
          · right; exact charListLeb_cons_iff.mpr (Or.inr ⟨by omega, h⟩)

theorem charListLeb_trans : ∀ {as bs cs : List Char},
    charListLeb as bs = true → charListLeb bs cs = true → charListLeb as cs = true := by
  intro as
  induction as with
  | nil => intro bs cs _ _; rfl
  | cons a as ih =>
    intro bs cs h1 h2
    cases bs with
    | nil => simp [charListLeb] at h1
    | cons b bs =>
      cases cs with
      | nil => simp [charListLeb] at h2
      | cons c cs =>
        rcases charListLeb_cons_iff.mp h1 with hab | ⟨hab, h1'⟩ <;>
          rcases charListLeb_cons_iff.mp h2 with hbc | ⟨hbc, h2'⟩
        · exact charListLeb_cons_iff.mpr (Or.inl (by omega))
        · exact charListLeb_cons_iff.mpr (Or.inl (by omega))
        · exact charListLeb_cons_iff.mpr (Or.inl (by omega))
        · exact charListLeb_cons_iff.mpr (Or.inr ⟨by omega, ih h1' h2'⟩)

theorem charListLeb_antisymm : ∀ {as bs : List Char},
    charListLeb as bs = true → charListLeb bs as = true → as = bs := by
  intro as
  induction as with
  | nil =>
    intro bs h1 h2
    cases bs with
    | nil => rfl
    | cons b bs => simp [charListLeb] at h2
  | cons a as ih =>
    intro bs h1 h2
    cases bs with
    | nil => simp [charListLeb] at h1
    | cons b bs =>
      rcases charListLeb_cons_iff.mp h1 with hab | ⟨hab, h1'⟩ <;>
        rcases charListLeb_cons_iff.mp h2 with hba | ⟨hba, h2'⟩
      · omega
      · omega
      · omega
      · rw [charToNat_inj hab, ih h1' h2']

/-- Byte-wise string comparison, as used by Go's `sort.Strings`. -/
def strLeb (a b : String) : Bool := charListLeb a.data b.data

/-- Propositional form of `strLeb`. -/
def strLe (a b : String) : Prop := strLeb a b = true

/-- Strict byte-wise string order. -/
def strLt (a b : String) : Prop := strLe a b ∧ a ≠ b

instance : DecidableRel strLe := fun a b => inferInstanceAs (Decidable (strLeb a b = true))

instance : IsTotal String strLe := ⟨fun a b => charListLeb_total a.data b.data⟩

instance : IsTrans String strLe := ⟨fun _ _ _ h1 h2 => charListLeb_trans h1 h2⟩

theorem strLe_antisymm {a b : String} (h1 : strLe a b) (h2 : strLe b a) : a = b := by
  cases a; cases b
  exact congrArg String.mk (charListLeb_antisymm h1 h2)

/-- Go's `sort.Strings`: the ascending byte-wise sort of a string slice. -/
def sortStrings (l : List String) : List String := l.insertionSort strLe

theorem sortStrings_sorted (l : List String) : (sortStrings l).Sorted strLe :=
  List.sorted_insertionSort _ _

theorem sortStrings_perm (l : List String) : List.Perm (sortStrings l) l :=
  List.perm_insertionSort _ _

theorem mem_sortStrings {s : String} {l : List String} : s ∈ sortStrings l ↔ s ∈ l :=
  (sortStrings_perm l).mem_iff

theorem sortStrings_nodup {l : List String} (h : l.Nodup) : (sortStrings l).Nodup :=
  ((sortStrings_perm l).nodup_iff).mpr h

theorem sortStrings_pairwise_lt {l : List String} (h : l.Nodup) :
    (sortStrings l).Pairwise strLt :=
  ((sortStrings_sorted l).and (sortStrings_nodup h))

/-- Go's `strings.Split(s, ",")`, specialised to the comma separator. -/
def splitCommaAux : List Char → String → List String
  | [], acc => [acc]
  | c :: cs, acc =>
    if c = ',' then acc :: splitCommaAux cs "" else splitCommaAux cs (acc.push c)

/-- Split a string at commas (Go `strings.Split(s, ",")`). -/
def splitComma (s : String) : List String := splitCommaAux s.data ""

/-- Go's `strings.Join(l, ",")`. -/
def joinComma : List String → String
  | [] => ""
  | [s] => s
  | s :: t :: rest => s ++ "," ++ joinComma (t :: rest)

/-! ## Permissionless-validator staking times (local/blockchain.go,
`addPermissionlessValidators`)

Go `time.Time` values are modelled by their Unix seconds (an `Int`);
`time.Time.IsZero` holds exactly for the zero time, whose Unix seconds are
-62135596800 (January 1, year 1 UTC).  Durations are modelled in seconds.
The Go conversion `uint64(x)` of a signed 64-bit value wraps modulo 2^64. -/

/-- Go conversion of a signed 64-bit integer to `uint64` (wraps mod 2^64). -/
def goUint64 (x : Int) : Nat := (x % (2 ^ 64 : Int)).toNat

/-- Unix seconds of Go's zero `time.Time`. -/
def goZeroTimeUnix : Int := -62135596800

/-- Go `time.Time.IsZero`, on the Unix-seconds model. -/
def timeIsZero (t : Int) : Bool := t = goZeroTimeUnix

/-- Constant `permissionlessValidationStartOffset` (30 s) from
local/blockchain.go, in seconds. -/
def permissionlessValidationStartOffset : Int := 30

/-- Spec for one permissionless validator
(`network.PermissionlessValidatorSpec`; fields as used in
local/blockchain.go). -/
structure PermissionlessValidatorSpec where
  subnetID : String
  nodeName : String
  stakedAmount : Nat
  assetID : String
  /-- Unix seconds of the spec's `StartTime`. -/
  startTime : Int
  /-- The spec's `StakeDuration`, in seconds. -/
  stakeDuration : Int
deriving DecidableEq, Repr

/-- Start/end time computation of `addPermissionlessValidators`
(local/blockchain.go): start is the spec's start time, or now + 30 s when
the spec's start time is the zero time; end is the primary validator's end
time when the stake duration is zero, else the spec's (raw) start time plus
the stake duration. -/
def permissionlessTimes (now : Int) (spec : PermissionlessValidatorSpec)
    (primaryEndTime : Int) : Nat × Nat :=
  let startTime : Nat :=
    if timeIsZero spec.startTime then goUint64 (now + permissionlessValidationStartOffset)
    else goUint64 spec.startTime
  let endTime : Nat :=
    if spec.stakeDuration = 0 then goUint64 primaryEndTime
    else goUint64 (spec.startTime + spec.stakeDuration)
  (startTime, endTime)

/-- Counterexample to claim C2 as stated: with a zero spec start time and a
nonzero stake duration, the issued end time is the (wrapped) zero time plus
the duration, not the computed start time (now + 30 s) plus the duration. -/
theorem C2_counterexample :
    ¬ ((permissionlessTimes 1000 ⟨"s", "n", 1, "a", goZeroTimeUnix, 5⟩ 99999).2
        = (permissionlessTimes 1000 ⟨"s", "n", 1, "a", goZeroTimeUnix, 5⟩ 99999).1 + 5) := by
  decide

/-- Claim C2 amended: the issued start time is the spec-provided start
time, or now + 30 s when the spec's start time is zero; the issued end time
is the node's primary-network validation end time when the stake duration
is zero, and otherwise the spec's raw start time plus the stake duration
(not the computed start time). -/
theorem C2_staking_times_amended (now : Int) (spec : PermissionlessValidatorSpec)
    (primaryEndTime : Int) :
    (timeIsZero spec.startTime = false →
        (permissionlessTimes now spec primaryEndTime).1 = goUint64 spec.startTime) ∧
    (timeIsZero spec.startTime = true →
        (permissionlessTimes now spec primaryEndTime).1
          = goUint64 (now + permissionlessValidationStartOffset)) ∧
    (spec.stakeDuration = 0 →
        (permissionlessTimes now spec primaryEndTime).2 = goUint64 primaryEndTime) ∧
    (spec.stakeDuration ≠ 0 →
        (permissionlessTimes now spec primaryEndTime).2
          = goUint64 (spec.startTime + spec.stakeDuration)) := by
  refine ⟨?_, ?_, ?_, ?_⟩ <;> intro h <;> simp [permissionlessTimes, h]

/-- Witness for C2's amended theorem at a concrete spec with nonzero start
time and zero stake duration. -/
theorem C2_staking_times_amended_witness :
    (permissionlessTimes 1000 ⟨"s", "n", 1, "a", 500, 0⟩ 700).1 = goUint64 500 ∧
    (permissionlessTimes 1000 ⟨"s", "n", 1, "a", 500, 0⟩ 700).2 = goUint64 700 :=
  ⟨(C2_staking_times_amended 1000 ⟨"s", "n", 1, "a", 500, 0⟩ 700).1 (by decide),
   (C2_staking_times_amended 1000 ⟨"s", "n", 1, "a", 500, 0⟩ 700).2.2.1 rfl⟩

/-! ## RPC client Close (client/client.go)

`Close` runs `c.closeOnce.Do(func() { close(c.closed) })` and then returns
`c.conn.Close()`.  Closing a Go channel twice panics, which we model as an
`Except.error`; `sync.Once` state and the number of channel closes are
tracked explicitly. -/

/-- State of the RPC client relevant to `Close`. -/
structure RPCClient where
  /-- How many times `close(c.closed)` has run. -/
  closedChannelCloses : Nat
  /-- Whether `c.closeOnce` has fired. -/
  closeOnceDone : Bool
deriving DecidableEq, Repr

/-- A freshly constructed client (`New`): channel open, once untriggered. -/
def newRPCClient : RPCClient := ⟨0, false⟩

/-- Go `close(ch)`: panics when the channel is already closed. -/
def goCloseChannel (closes : Nat) : Except String Nat :=
  if closes = 0 then .ok (closes + 1) else .error "close of closed channel"

/-- One call of `client.Close` (client/client.go).  `connCloseResult` is
the value `c.conn.Close()` returns at this call. -/
def clientClose (connCloseResult : Option String) (c : RPCClient) :
    Except String (RPCClient × Option String) :=
  if c.closeOnceDone then .ok (c, connCloseResult)
  else
    match goCloseChannel c.closedChannelCloses with
    | .error e => .error e
    | .ok closes => .ok ({ closedChannelCloses := closes, closeOnceDone := true }, connCloseResult)

/-- Calls `clientClose` `count` times starting at call index `k`, where
`results j` is what the underlying connection's `Close` returns at call
`j`; collects the returned values. -/
def iterateClose (results : Nat → Option String) : Nat → Nat → RPCClient →
    Except String (RPCClient × List (Option String))
  | _, 0, c => .ok (c, [])
  | k, count + 1, c =>
    match clientClose (results k) c with
    | .error e => .error e
    | .ok (c', r) =>
      match iterateClose results (k + 1) count c' with
      | .error e => .error e
      | .ok (c'', rs) => .ok (c'', r :: rs)

theorem iterateClose_closed (results : Nat → Option String) (k count : Nat) :
    iterateClose results k count ⟨1, true⟩
      = .ok (⟨1, true⟩, (List.range' k count).map results) := by
  induction count generalizing k with
  | zero => rfl
  | succ n ih =>
    simp [iterateClose, clientClose, List.range'_succ, ih (k + 1)]

/-- Claim C9: `Close` is idempotent — any number n ≥ 1 of consecutive
`Close` calls on a fresh client never double-closes (no panic), closes the
client's `closed` channel exactly once, and each call returns exactly the
result of closing the underlying connection at that call. -/
theorem C9_close_idempotent (results : Nat → Option String) (n : Nat) (h : 1 ≤ n) :
    iterateClose results 0 n newRPCClient
      = .ok (⟨1, true⟩, (List.range' 0 n).map results) := by
  obtain ⟨m, rfl⟩ : ∃ m, n = m + 1 := ⟨n - 1, by omega⟩
  simp [iterateClose, newRPCClient, clientClose, goCloseChannel, List.range'_succ,
    iterateClose_closed results 1 m]

/-- Witness for C9 at three consecutive `Close` calls with distinct
connection results. -/
theorem C9_close_idempotent_witness :
    iterateClose (fun j => if j = 1 then some "conn err" else none) 0 3 newRPCClient
      = .ok (⟨1, true⟩, [none, some "conn err", none]) :=
  C9_close_idempotent (fun j => if j = 1 then some "conn err" else none) 3 (by decide)

/-! ## Endpoint selection (local/blockchain.go, `getNode` / `getClientURI`) -/

/-- The part of a `localNode` record that `getNode` inspects. -/
structure LNode where
  name : String
  paused : Bool
  /-- The node's API port (a `uint16`). -/
  apiPort : Nat
  url : String
deriving DecidableEq, Repr

/-- Modelled from the spec: the constant `MaxPort` is declared outside the
provided sources; `getNode` starts its port minimisation at
`uint16(MaxPort)`, the largest 16-bit port value. -/
def MaxPort : Nat := 65535

/-- One iteration of the loop in `getNode`: skip paused nodes, keep the
node with the strictly smallest API port seen so far. -/
def getNodeStep (acc : Nat × Option LNode) (n : LNode) : Nat × Option LNode :=
  if n.paused then acc
  else if n.apiPort < acc.1 then (n.apiPort, some n) else acc

/-- Function `getNode` from local/blockchain.go: the non-paused node with
the minimum API port, or `none` (Go `nil`) when no non-paused node has a
port below `MaxPort`. -/
def getNode (nodes : List LNode) : Option LNode :=
  (nodes.foldl getNodeStep (MaxPort, none)).2

/-- Function `getClientURI` from local/blockchain.go:
`fmt.Sprintf("http://%s:%d", node.GetURL(), node.GetAPIPort())` on the
node returned by `getNode`.  When `getNode` returns `nil` the method calls
on the nil node panic; the panic is modelled as `none` (the Go code has no
error return for this case). -/
def getClientURI (nodes : List LNode) : Option String :=
  (getNode nodes).map (fun n => "http://" ++ n.url ++ ":" ++ toString n.apiPort)

/-- Loop invariant for `getNode`'s fold. -/
def getNodeInv (seen : List LNode) (acc : Nat × Option LNode) : Prop :=
  acc.1 ≤ MaxPort ∧
  (∀ n ∈ seen, n.paused = false → acc.1 ≤ n.apiPort) ∧
  match acc.2 with
  | none => acc.1 = MaxPort ∧ ∀ n ∈ seen, n.paused = true ∨ MaxPort ≤ n.apiPort
  | some m => m ∈ seen ∧ m.paused = false ∧ m.apiPort = acc.1 ∧ acc.1 < MaxPort

theorem getNodeStep_inv {seen : List LNode} {acc : Nat × Option LNode} (n : LNode)
    (h : getNodeInv seen acc) : getNodeInv (seen ++ [n]) (getNodeStep acc n) := by
  obtain ⟨hle, hmin, hcase⟩ := h
  by_cases hp : n.paused
  · have hstep : getNodeStep acc n = acc := by simp [getNodeStep, hp]
    rw [hstep]
    refine ⟨hle, ?_, ?_⟩
    · intro k hk hkp
      rcases List.mem_append.mp hk with hk | hk
      · exact hmin k hk hkp
      · simp only [List.mem_singleton] at hk; subst hk
        simp [hp] at hkp
    · cases hacc : acc.2 with
      | none =>
        rw [hacc] at hcase
        refine ⟨hcase.1, ?_⟩
        intro k hk
        rcases List.mem_append.mp hk with hk | hk
        · exact hcase.2 k hk
        · simp only [List.mem_singleton] at hk; subst hk
          exact Or.inl (by simpa using hp)
      | some m =>
        rw [hacc] at hcase
        exact ⟨List.mem_append_left _ hcase.1, hcase.2.1, hcase.2.2⟩
  · by_cases hlt : n.apiPort < acc.1
    · have hstep : getNodeStep acc n = (n.apiPort, some n) := by
        simp [getNodeStep, hp, hlt]
      rw [hstep]
      refine ⟨by omega, ?_, ?_⟩
      · intro k hk hkp
        rcases List.mem_append.mp hk with hk | hk
        · have := hmin k hk hkp; omega
        · simp only [List.mem_singleton] at hk; subst hk; exact le_refl _
      · refine ⟨List.mem_append_right _ (by simp), by simpa using hp, rfl, ?_⟩
        cases hacc : acc.2 with
        | none => rw [hacc] at hcase; omega
        | some m => rw [hacc] at hcase; omega
    · have hstep : getNodeStep acc n = acc := by
        simp [getNodeStep, hp, hlt]
      rw [hstep]
      refine ⟨hle, ?_, ?_⟩
      · intro k hk hkp
        rcases List.mem_append.mp hk with hk | hk
        · exact hmin k hk hkp
        · simp only [List.mem_singleton] at hk; subst hk; omega
      · cases hacc : acc.2 with
        | none =>
          rw [hacc] at hcase
          refine ⟨hcase.1, ?_⟩
          intro k hk
          rcases List.mem_append.mp hk with hk | hk
          · exact hcase.2 k hk
          · simp only [List.mem_singleton] at hk; subst hk
            right; omega
        | some m =>
          rw [hacc] at hcase
          exact ⟨List.mem_append_left _ hcase.1, hcase.2.1, hcase.2.2⟩

theorem getNode_fold_inv (rest seen : List LNode) (acc : Nat × Option LNode)
    (h : getNodeInv seen acc) :
    getNodeInv (seen ++ rest) (rest.foldl getNodeStep acc) := by
  induction rest generalizing seen acc with
  | nil => simpa using h
  | cons n rest ih =>
    have := ih (seen ++ [n]) (getNodeStep acc n) (getNodeStep_inv n h)
    simpa [List.append_assoc] using this

theorem getNode_inv (nodes : List LNode) :
    getNodeInv nodes (nodes.foldl getNodeStep (MaxPort, none)) := by
  have := getNode_fold_inv nodes [] (MaxPort, none)
    ⟨le_refl _, by simp, rfl, by simp⟩
  simpa using this

/-- Claim C10: `getNode` returns the non-paused node with the smallest API
port whenever a non-paused node with a port below `MaxPort` exists; when
every node is paused, or the node map is empty, it returns `nil` and
`getClientURI` dereferences the nil node (modelled as `none`) instead of
returning an error. -/
theorem C10_getNode_safety (nodes : List LNode) :
    ((∃ n ∈ nodes, n.paused = false ∧ n.apiPort < MaxPort) →
        ∃ m, getNode nodes = some m ∧ m ∈ nodes ∧ m.paused = false ∧
          m.apiPort < MaxPort ∧
          ∀ k ∈ nodes, k.paused = false → m.apiPort ≤ k.apiPort) ∧
    ((∀ n ∈ nodes, n.paused = true) → getNode nodes = none ∧ getClientURI nodes = none) ∧
    (nodes = [] → getNode nodes = none ∧ getClientURI nodes = none) ∧
    (getClientURI nodes = none ↔ getNode nodes = none) := by
  have hinv := getNode_inv nodes
  obtain ⟨hle, hmin, hcase⟩ := hinv
  have hmapnone : getClientURI nodes = none ↔ getNode nodes = none := by
    unfold getClientURI
    cases getNode nodes <;> simp
  refine ⟨?_, ?_, ?_, hmapnone⟩
  · rintro ⟨n, hn, hnp, hnport⟩
    cases hacc : (nodes.foldl getNodeStep (MaxPort, none)).2 with
    | none =>
      rw [hacc] at hcase
      rcases hcase.2 n hn with h | h
      · rw [hnp] at h; cases h
      · omega
    | some m =>
      rw [hacc] at hcase
      refine ⟨m, hacc, hcase.1, hcase.2.1, ?_, ?_⟩
      · rw [hcase.2.2.1]; exact hcase.2.2.2
      · intro k hk hkp
        rw [hcase.2.2.1]; exact hmin k hk hkp
  · intro hall
    cases hacc : (nodes.foldl getNodeStep (MaxPort, none)).2 with
    | none =>
      refine ⟨hacc, ?_⟩
      rw [hmapnone]; exact hacc
    | some m =>
      rw [hacc] at hcase
      have hfalse := hcase.2.1
      simp [hall m hcase.1] at hfalse
  · intro hempty
    subst hempty
    exact ⟨rfl, rfl⟩

/-- Witness for C10 at a concrete fleet: a paused node with the smallest
port is skipped, and the non-paused node with the smaller port wins. -/
theorem C10_getNode_safety_witness :
    (∃ n ∈ [LNode.mk "a" true 10 "u", LNode.mk "b" false 30 "u", LNode.mk "c" false 20 "u"],
        n.paused = false ∧ n.apiPort < MaxPort) ∧
    ∃ m, getNode [LNode.mk "a" true 10 "u", LNode.mk "b" false 30 "u", LNode.mk "c" false 20 "u"]
        = some m ∧
      m ∈ [LNode.mk "a" true 10 "u", LNode.mk "b" false 30 "u", LNode.mk "c" false 20 "u"] ∧
      m.paused = false ∧ m.apiPort < MaxPort ∧
      ∀ k ∈ [LNode.mk "a" true 10 "u", LNode.mk "b" false 30 "u", LNode.mk "c" false 20 "u"],
        k.paused = false → m.apiPort ≤ k.apiPort :=
  ⟨⟨LNode.mk "c" false 20 "u", by decide⟩,
   (C10_getNode_safety [LNode.mk "a" true 10 "u", LNode.mk "b" false 30 "u",
      LNode.mk "c" false 20 "u"]).1 ⟨LNode.mk "c" false 20 "u", by decide⟩⟩

/-! ## Subnet participant defaulting and node creation
(local/blockchain.go, shared prefix of `installSubnets` and
`installCustomChains`) -/

/-- Spec for one subnet (`network.SubnetSpec`): participant node names and
optional subnet config bytes. -/
structure SubnetSpec where
  participants : List String
  subnetConfig : Option String
deriving DecidableEq, Repr

/-- Participant defaulting in `installSubnets`/`installCustomChains`: a
spec with no participants gets the sorted list of all current node names
(`allNodeNames := maps.Keys(ln.nodes); sort.Strings(allNodeNames)`). -/
def fillParticipants (allNodeNames : List String) (specs : List SubnetSpec) :
    List SubnetSpec :=
  specs.map fun s =>
    if s.participants.isEmpty then { s with participants := sortStrings allNodeNames } else s

/-- One step of the new-node creation loop: if the participant is not a
known node name, add it (`ln.addNode(node.Config{Name: nodeName})`).  The
first component is the node-name registry, the second the names added so
far. -/
def ensureStep (acc : List String × List String) (p : String) :
    List String × List String :=
  if p ∈ acc.1 then acc else (acc.1 ++ [p], acc.2 ++ [p])

/-- The new-node creation loop of `installSubnets`/`installCustomChains`:
for each spec, for each participant, add a node when the name is unknown.
Returns the final registry and the list of added names, i.e. the state at
the `ln.healthy(ctx)` fleet-health barrier that follows the loop. -/
def ensureParticipants (nodeNames : List String) (specs : List SubnetSpec) :
    List String × List String :=
  specs.foldl (fun acc s => s.participants.foldl ensureStep acc) (nodeNames, [])

theorem ensureParticipants_eq_flat (nodeNames : List String) (specs : List SubnetSpec) :
    ensureParticipants nodeNames specs
      = (specs.flatMap (·.participants)).foldl ensureStep (nodeNames, []) := by
  unfold ensureParticipants
  generalize (nodeNames, ([] : List String)) = init
  induction specs generalizing init with
  | nil => rfl
  | cons s specs ih => simp [List.flatMap_cons, List.foldl_append, ih]

theorem ensureStep_fold_mono {q : String} :
    ∀ (ps : List String) (acc : List String × List String),
      q ∈ acc.1 → q ∈ (ps.foldl ensureStep acc).1 := by
  intro ps
  induction ps with
  | nil => intro acc h; exact h
  | cons p ps ih =>
    intro acc h
    rw [List.foldl_cons]
    apply ih
    unfold ensureStep
    split
    · exact h
    · exact List.mem_append_left _ h

theorem ensureStep_fold_covers {q : String} :
    ∀ (ps : List String) (acc : List String × List String),
      q ∈ ps → q ∈ (ps.foldl ensureStep acc).1 := by
  intro ps
  induction ps with
  | nil => intro acc h; cases h
  | cons p ps ih =>
    intro acc h
    rw [List.foldl_cons]
    rcases List.mem_cons.mp h with h | h
    · subst h
      apply ensureStep_fold_mono
      unfold ensureStep
      split
      · assumption
      · exact List.mem_append_right _ (by simp)
    · exact ih _ h

theorem ensureStep_fold_registry (nodeNames : List String) :
    ∀ (ps : List String) (acc : List String × List String),
      acc.1 = nodeNames ++ acc.2 →
      (ps.foldl ensureStep acc).1 = nodeNames ++ (ps.foldl ensureStep acc).2 := by
  intro ps
  induction ps with
  | nil => intro acc h; exact h
  | cons p ps ih =>
    intro acc h
    rw [List.foldl_cons]
    apply ih
    unfold ensureStep
    split
    · exact h
    · simp [h]

/-- Claim C7: in the subnet-creation workflow, a `SubnetSpec` with an empty
participants list is replaced by the sorted list of all current node names
(and non-empty lists are kept); every declared participant of the filled
specs is present in the node registry at the fleet-health barrier; and the
registry there is exactly the original nodes plus the added ones, so a
declared participant that was not present has been added. -/
theorem C7_participants (nodeNames : List String) (specs : List SubnetSpec) :
    (∀ (i : Nat) (s : SubnetSpec), specs[i]? = some s → s.participants.isEmpty = true →
        (fillParticipants nodeNames specs)[i]?
          = some { s with participants := sortStrings nodeNames }) ∧
    (∀ (i : Nat) (s : SubnetSpec), specs[i]? = some s → s.participants.isEmpty = false →
        (fillParticipants nodeNames specs)[i]? = some s) ∧
    (∀ s ∈ fillParticipants nodeNames specs, ∀ p ∈ s.participants,
        p ∈ (ensureParticipants nodeNames (fillParticipants nodeNames specs)).1) ∧
    (∀ p, p ∈ (ensureParticipants nodeNames (fillParticipants nodeNames specs)).1 ↔
        p ∈ nodeNames ∨ p ∈ (ensureParticipants nodeNames (fillParticipants nodeNames specs)).2) ∧
    (∀ s ∈ fillParticipants nodeNames specs, ∀ p ∈ s.participants, p ∉ nodeNames →
        p ∈ (ensureParticipants nodeNames (fillParticipants nodeNames specs)).2) := by
  have hreg : (ensureParticipants nodeNames (fillParticipants nodeNames specs)).1
      = nodeNames ++ (ensureParticipants nodeNames (fillParticipants nodeNames specs)).2 := by
    rw [ensureParticipants_eq_flat]
    exact ensureStep_fold_registry nodeNames _ (nodeNames, []) (by simp)
  have hcover : ∀ s ∈ fillParticipants nodeNames specs, ∀ p ∈ s.participants,
      p ∈ (ensureParticipants nodeNames (fillParticipants nodeNames specs)).1 := by
    intro s hs p hp
    rw [ensureParticipants_eq_flat]
    apply ensureStep_fold_covers
    exact List.mem_flatMap.mpr ⟨s, hs, hp⟩
  refine ⟨?_, ?_, hcover, ?_, ?_⟩
  · intro i s hi hempty
    have h' : s.participants = [] := by simpa using hempty
    simp [fillParticipants, List.getElem?_map, hi, h']
  · intro i s hi hempty
    have h' : ¬ s.participants = [] := by simpa using hempty
    simp [fillParticipants, List.getElem?_map, hi, h']
  · intro p
    rw [hreg]
    exact List.mem_append
  · intro s hs p hp hnot
    have := hcover s hs p hp
    rw [hreg] at this
    rcases List.mem_append.mp this with h | h
    · exact absurd h hnot
    · exact h

/-- Witness for C7 at a concrete input: an empty participants list is
filled with the sorted node names, and the unknown participant of the
second spec is added to the registry. -/
theorem C7_participants_witness :
    (fillParticipants ["n2", "n1"] [⟨[], none⟩, ⟨["x1"], none⟩])[0]?
      = some ⟨sortStrings ["n2", "n1"], none⟩ ∧
    ("x1" : String) ∈ (ensureParticipants ["n2", "n1"]
      (fillParticipants ["n2", "n1"] [⟨[], none⟩, ⟨["x1"], none⟩])).2 :=
  ⟨(C7_participants ["n2", "n1"] [⟨[], none⟩, ⟨["x1"], none⟩]).1 0 ⟨[], none⟩ rfl rfl,
   (C7_participants ["n2", "n1"] [⟨[], none⟩, ⟨["x1"], none⟩]).2.2.2.2
     ⟨["x1"], none⟩ (by decide) "x1" (by decide) (by decide)⟩

/-! ## Idempotent validator addition (local/blockchain.go,
`addPrimaryValidators` / `addSubnetValidators`)

The wallet and platform chain are abstracted: `curValidators` is the node-ID
list returned by `GetCurrentValidators`, and every issued add-validator tx
is assumed to be accepted, appending its node ID to the validator set. -/

/-- A node as seen by the validator-addition workflows. -/
structure VNode where
  name : String
  nodeID : String
deriving DecidableEq, Repr

/-- Issuance decision of `addPrimaryValidators`: an
add-permissionless-validator tx on the primary network is issued exactly
for the nodes whose node ID is not in `GetCurrentValidators(primary)`
(`if curValidators.Contains(nodeID) { continue }`). -/
def issuedPrimaryValidators (curValidators : List String) (nodes : List VNode) :
    List String :=
  (nodes.filter (fun n => decide (n.nodeID ∉ curValidators))).map VNode.nodeID

/-- The primary-network validator set after the workflow, assuming the
chain accepts each issued tx. -/
def afterPrimaryWorkflow (curValidators : List String) (nodes : List VNode) :
    List String :=
  curValidators ++ issuedPrimaryValidators curValidators nodes

/-- Issuance decision of `addSubnetValidators` for one subnet: for each
participant, fail when the name is not a network node, skip when its node
ID already validates the subnet, else issue an add-subnet-validator tx. -/
def issuedSubnetValidators (subnetValidators : List String) (nodes : List VNode) :
    List String → Except String (List String)
  | [] => .ok []
  | p :: ps =>
    match nodes.find? (fun n => n.name = p) with
    | none => .error ("participant node " ++ p ++ " is not in network nodes")
    | some n =>
      match issuedSubnetValidators subnetValidators nodes ps with
      | .error e => .error e
      | .ok rest =>
        .ok (if n.nodeID ∈ subnetValidators then rest else n.nodeID :: rest)

theorem issuedPrimary_mem {cur : List String} {nodes : List VNode} {id : String} :
    id ∈ issuedPrimaryValidators cur nodes ↔
      (∃ n ∈ nodes, n.nodeID = id) ∧ id ∉ cur := by
  unfold issuedPrimaryValidators
  simp only [List.mem_map, List.mem_filter, decide_eq_true_eq]
  constructor
  · rintro ⟨n, ⟨hn, hnot⟩, rfl⟩
    exact ⟨⟨n, hn, rfl⟩, hnot⟩
  · rintro ⟨⟨n, hn, rfl⟩, hnot⟩
    exact ⟨n, ⟨hn, hnot⟩, rfl⟩

theorem issuedPrimary_nodup {cur : List String} {nodes : List VNode}
    (h : (nodes.map VNode.nodeID).Nodup) :
    (issuedPrimaryValidators cur nodes).Nodup := by
  unfold issuedPrimaryValidators
  have hsub : List.Sublist ((nodes.filter (fun n => decide (n.nodeID ∉ cur))).map VNode.nodeID)
      (nodes.map VNode.nodeID) :=
    (List.filter_sublist nodes).map VNode.nodeID
  exact h.sublist hsub

theorem issuedSubnet_find {subnetVals : List String} {nodes : List VNode} :
    ∀ {ps : List String} {issued : List String},
      issuedSubnetValidators subnetVals nodes ps = .ok issued →
      ∀ p ∈ ps, ∃ n, nodes.find? (fun n => n.name = p) = some n := by
  intro ps
  induction ps with
  | nil => intro issued _ p hp; cases hp
  | cons q ps ih =>
    intro issued hok p hp
    unfold issuedSubnetValidators at hok
    cases hfind : nodes.find? (fun n => n.name = q) with
    | none => rw [hfind] at hok; cases hok
    | some n =>
      rw [hfind] at hok
      cases hrest : issuedSubnetValidators subnetVals nodes ps with
      | error e => rw [hrest] at hok; cases hok
      | ok rest =>
        rw [hrest] at hok
        rcases List.mem_cons.mp hp with hp | hp
        · exact hp ▸ ⟨n, hfind⟩
        · exact ih hrest p hp

theorem issuedSubnet_sound {subnetVals : List String} {nodes : List VNode} :
    ∀ {ps : List String} {issued : List String},
      issuedSubnetValidators subnetVals nodes ps = .ok issued →
      ∀ id ∈ issued, id ∉ subnetVals ∧
        ∃ p ∈ ps, ∃ n, nodes.find? (fun n => n.name = p) = some n ∧ n.nodeID = id := by
  intro ps
  induction ps with
  | nil =>
    intro issued hok id hid
    cases hok; cases hid
  | cons q ps ih =>
    intro issued hok id hid
    unfold issuedSubnetValidators at hok
    cases hfind : nodes.find? (fun n => n.name = q) with
    | none => rw [hfind] at hok; cases hok
    | some n =>
      rw [hfind] at hok
      cases hrest : issuedSubnetValidators subnetVals nodes ps with
      | error e => rw [hrest] at hok; cases hok
      | ok rest =>
        rw [hrest] at hok
        cases hok
        by_cases hmem : n.nodeID ∈ subnetVals
        · rw [if_pos hmem] at hid
          obtain ⟨h1, p, hp, m, hm, hid'⟩ := ih hrest id hid
          exact ⟨h1, p, List.mem_cons_of_mem _ hp, m, hm, hid'⟩
        · rw [if_neg hmem] at hid
          rcases List.mem_cons.mp hid with hid | hid
          · subst hid
            exact ⟨hmem, q, List.mem_cons_self _ _, n, hfind, rfl⟩
          · obtain ⟨h1, p, hp, m, hm, hid'⟩ := ih hrest id hid
            exact ⟨h1, p, List.mem_cons_of_mem _ hp, m, hm, hid'⟩

theorem issuedSubnet_covers {subnetVals : List String} {nodes : List VNode} :
    ∀ {ps : List String} {issued : List String},
      issuedSubnetValidators subnetVals nodes ps = .ok issued →
      ∀ p ∈ ps, ∀ n, nodes.find? (fun n => n.name = p) = some n →
        n.nodeID ∈ subnetVals ∨ n.nodeID ∈ issued := by
  intro ps
  induction ps with
  | nil => intro issued _ p hp; cases hp
  | cons q ps ih =>
    intro issued hok p hp n hfindp
    unfold issuedSubnetValidators at hok
    cases hfind : nodes.find? (fun m => m.name = q) with
    | none => rw [hfind] at hok; cases hok
    | some m =>
      rw [hfind] at hok
      cases hrest : issuedSubnetValidators subnetVals nodes ps with
      | error e => rw [hrest] at hok; cases hok
      | ok rest =>
        rw [hrest] at hok
        cases hok
        rcases List.mem_cons.mp hp with hp | hp
        · subst hp
          rw [hfindp] at hfind
          cases hfind
          by_cases hmem : n.nodeID ∈ subnetVals
          · exact Or.inl hmem
          · right; rw [if_neg hmem]; exact List.mem_cons_self _ _
        · rcases ih hrest p hp n hfindp with h | h
          · exact Or.inl h
          · right
            by_cases hmem : m.nodeID ∈ subnetVals
            · rwa [if_pos hmem]
            · rw [if_neg hmem]; exact List.mem_cons_of_mem _ h

theorem issuedSubnet_all_members {S : List String} {nodes : List VNode} :
    ∀ {ps : List String},
      (∀ p ∈ ps, ∃ n, nodes.find? (fun n => n.name = p) = some n ∧ n.nodeID ∈ S) →
      issuedSubnetValidators S nodes ps = .ok [] := by
  intro ps
  induction ps with
  | nil => intro _; rfl
  | cons q ps ih =>
    intro h
    obtain ⟨n, hfind, hmem⟩ := h q (List.mem_cons_self _ _)
    simp only [issuedSubnetValidators, hfind,
      ih (fun p hp => h p (List.mem_cons_of_mem _ hp)), if_pos hmem]

theorem issuedSubnet_nodup {subnetVals : List String} {nodes : List VNode}
    (hids : (nodes.map VNode.nodeID).Nodup) :
    ∀ {ps : List String} {issued : List String}, ps.Nodup →
      issuedSubnetValidators subnetVals nodes ps = .ok issued → issued.Nodup := by
  intro ps
  induction ps with
  | nil => intro issued _ hok; cases hok; exact List.nodup_nil
  | cons q ps ih =>
    intro issued hnd hok
    unfold issuedSubnetValidators at hok
    cases hfind : nodes.find? (fun n => n.name = q) with
    | none => rw [hfind] at hok; cases hok
    | some n =>
      rw [hfind] at hok
      cases hrest : issuedSubnetValidators subnetVals nodes ps with
      | error e => rw [hrest] at hok; cases hok
      | ok rest =>
        rw [hrest] at hok
        cases hok
        have hrestnd : rest.Nodup := ih (List.Nodup.of_cons hnd) hrest
        by_cases hmem : n.nodeID ∈ subnetVals
        · rwa [if_pos hmem]
        · rw [if_neg hmem]
          refine List.nodup_cons.mpr ⟨?_, hrestnd⟩
          intro hin
          obtain ⟨_, p, hp, m, hm, hid⟩ := issuedSubnet_sound hrest n.nodeID hin
          have hnmem : n ∈ nodes := List.mem_of_find?_eq_some hfind
          have hmmem : m ∈ nodes := List.mem_of_find?_eq_some hm
          have hnname : n.name = q := by simpa using List.find?_some hfind
          have hmname : m.name = p := by simpa using List.find?_some hm
          have hmn : m = n := List.inj_on_of_nodup_map hids hmmem hnmem hid
          apply (List.nodup_cons.mp hnd).1
          have hpq : p = q := by rw [← hmname, hmn, hnname]
          rwa [hpq] at hp

/-- Claim C6: the validator-addition workflows are idempotent with respect
to chain membership.  `addPrimaryValidators` issues txs exactly for node
IDs absent from `GetCurrentValidators(primary)`: rerunning it on the
resulting validator set issues nothing, the set is unchanged, and each
node's ID appears exactly once.  `addSubnetValidators` issues txs exactly
for participants not already validating the subnet: rerunning it on the
resulting set issues nothing and each participant's node ID appears
exactly once. -/
theorem C6_idempotent_validator_addition
    (cur subnetVals participants : List String) (nodes : List VNode)
    (hids : (nodes.map VNode.nodeID).Nodup)
    (hcur : ∀ id ∈ nodes.map VNode.nodeID, cur.count id ≤ 1)
    (hsubcount : ∀ id ∈ nodes.map VNode.nodeID, subnetVals.count id ≤ 1)
    (hpart : participants.Nodup) :
    (issuedPrimaryValidators (afterPrimaryWorkflow cur nodes) nodes = [] ∧
     afterPrimaryWorkflow (afterPrimaryWorkflow cur nodes) nodes
       = afterPrimaryWorkflow cur nodes ∧
     ∀ n ∈ nodes, (afterPrimaryWorkflow cur nodes).count n.nodeID = 1) ∧
    (∀ issued, issuedSubnetValidators subnetVals nodes participants = .ok issued →
       (∀ id ∈ issued, id ∉ subnetVals) ∧
       issuedSubnetValidators (subnetVals ++ issued) nodes participants = .ok [] ∧
       ∀ p ∈ participants, ∀ n, nodes.find? (fun m => m.name = p) = some n →
          (subnetVals ++ issued).count n.nodeID = 1) := by
  have hall : ∀ n ∈ nodes, n.nodeID ∈ afterPrimaryWorkflow cur nodes := by
    intro n hn
    by_cases hmem : n.nodeID ∈ cur
    · exact List.mem_append_left _ hmem
    · exact List.mem_append_right _ (issuedPrimary_mem.mpr ⟨⟨n, hn, rfl⟩, hmem⟩)
  have hempty : issuedPrimaryValidators (afterPrimaryWorkflow cur nodes) nodes = [] := by
    unfold issuedPrimaryValidators
    have : nodes.filter (fun n => decide (n.nodeID ∉ afterPrimaryWorkflow cur nodes)) = [] := by
      rw [List.filter_eq_nil_iff]
      intro n hn
      simpa using hall n hn
    rw [this, List.map_nil]
  refine ⟨⟨hempty, ?_, ?_⟩, ?_⟩
  · show afterPrimaryWorkflow cur nodes
        ++ issuedPrimaryValidators (afterPrimaryWorkflow cur nodes) nodes
        = afterPrimaryWorkflow cur nodes
    rw [hempty, List.append_nil]
  · intro n hn
    have hidmem : n.nodeID ∈ nodes.map VNode.nodeID := List.mem_map_of_mem _ hn
    show (cur ++ issuedPrimaryValidators cur nodes).count n.nodeID = 1
    rw [List.count_append]
    by_cases hmem : n.nodeID ∈ cur
    · have h1 : cur.count n.nodeID = 1 :=
        Nat.le_antisymm (hcur _ hidmem) (List.count_pos_iff.mpr hmem)
      have h0 : (issuedPrimaryValidators cur nodes).count n.nodeID = 0 := by
        apply List.count_eq_zero_of_not_mem
        intro hin
        exact (issuedPrimary_mem.mp hin).2 hmem
      omega
    · have h1 : cur.count n.nodeID = 0 := List.count_eq_zero_of_not_mem hmem
      have h2 : (issuedPrimaryValidators cur nodes).count n.nodeID = 1 :=
        List.count_eq_one_of_mem (issuedPrimary_nodup hids)
          (issuedPrimary_mem.mpr ⟨⟨n, hn, rfl⟩, hmem⟩)
      omega
  · intro issued hok
    refine ⟨fun id hid => (issuedSubnet_sound hok id hid).1, ?_, ?_⟩
    · apply issuedSubnet_all_members
      intro p hp
      obtain ⟨n, hfind⟩ := issuedSubnet_find hok p hp
      refine ⟨n, hfind, ?_⟩
      rcases issuedSubnet_covers hok p hp n hfind with h | h
      · exact List.mem_append_left _ h
      · exact List.mem_append_right _ h
    · intro p hp n hfind
      have hnmem : n ∈ nodes := List.mem_of_find?_eq_some hfind
      have hidmem : n.nodeID ∈ nodes.map VNode.nodeID := List.mem_map_of_mem _ hnmem
      rw [List.count_append]
      by_cases hmem : n.nodeID ∈ subnetVals
      · have h1 : subnetVals.count n.nodeID = 1 :=
          Nat.le_antisymm (hsubcount _ hidmem) (List.count_pos_iff.mpr hmem)
        have h0 : issued.count n.nodeID = 0 := by
          apply List.count_eq_zero_of_not_mem
          intro hin
          exact (issuedSubnet_sound hok _ hin).1 hmem
        omega
      · have h1 : subnetVals.count n.nodeID = 0 := List.count_eq_zero_of_not_mem hmem
        have hin : n.nodeID ∈ issued := by
          rcases issuedSubnet_covers hok p hp n hfind with h | h
          · exact absurd h hmem
          · exact h
        have h2 : issued.count n.nodeID = 1 :=
          List.count_eq_one_of_mem (issuedSubnet_nodup hids hpart hok) hin
        omega

/-- Witness for C6 at a concrete network: node `n1` is already a primary
validator, `n2` is not; rerunning the primary workflow changes nothing, and
the subnet workflow on the set it produced issues nothing. -/
theorem C6_idempotent_validator_addition_witness :
    afterPrimaryWorkflow
        (afterPrimaryWorkflow ["id1"] [⟨"n1", "id1"⟩, ⟨"n2", "id2"⟩])
        [⟨"n1", "id1"⟩, ⟨"n2", "id2"⟩]
      = afterPrimaryWorkflow ["id1"] [⟨"n1", "id1"⟩, ⟨"n2", "id2"⟩] ∧
    issuedSubnetValidators ([] ++ ["id1", "id2"]) [⟨"n1", "id1"⟩, ⟨"n2", "id2"⟩]
        ["n1", "n2"] = .ok [] :=
  ⟨(C6_idempotent_validator_addition ["id1"] [] ["n1", "n2"]
      [⟨"n1", "id1"⟩, ⟨"n2", "id2"⟩] (by decide) (by decide) (by decide) (by decide)).1.2.1,
   ((C6_idempotent_validator_addition ["id1"] [] ["n1", "n2"]
      [⟨"n1", "id1"⟩, ⟨"n2", "id2"⟩] (by decide) (by decide) (by decide) (by decide)).2
      ["id1", "id2"] rfl).2.1⟩

/-! ## Elastic-subnet transform (local/blockchain.go,
`transformToElasticSubnets` / `getXChainAssetID` / `GetElasticSubnetID`)

The wallet is abstracted to a trace of issued operations; `assetTxID i`
and `transformTxID i` are the transaction IDs the chain assigns to the
i-th spec's create-asset and transform-subnet transactions. -/

/-- Spec for one elastic-subnet transform (`network.ElasticSubnetSpec`,
fields as used in local/blockchain.go; `subnetID` is a pointer, hence
optional). -/
structure ElasticSubnetSpec where
  subnetID : Option String
  assetName : String
  assetSymbol : String
  initialSupply : Nat
  maxSupply : Nat
  minConsumptionRate : Nat
  maxConsumptionRate : Nat
  minValidatorStake : Nat
  maxValidatorStake : Nat
  minStakeDuration : Nat
  maxStakeDuration : Nat
  minDelegationFee : Nat
  minDelegatorStake : Nat
  maxValidatorWeightFactor : Nat
  uptimeRequirement : Nat
deriving DecidableEq, Repr

/-- One wallet transaction issued by the transform workflow, with the
arguments the source passes. -/
inductive WalletOp where
  | createAsset (name symbol : String) (denomination allocationAmount : Nat)
      (ownerAddr : String)
  | exportToPChain (assetID : String) (amount : Nat) (ownerAddr : String)
  | importFromXChain (xChainID : String) (ownerAddr : String)
  | transformSubnet (subnetID assetID : String) (spec : ElasticSubnetSpec)
deriving DecidableEq, Repr

/-- Go map assignment `m[k] = v` on an association list whose bindings
are only ever observed through lookups: the new binding shadows any older
one, modelled by prepending (lookups return the first match). -/
def assocSet (k v : String) (m : List (String × String)) : List (String × String) :=
  (k, v) :: m

/-- Method `GetElasticSubnetID` from local/blockchain.go: look the subnet
up in `subnetID2ElasticSubnetID`, error when absent. -/
def GetElasticSubnetID (m : List (String × String)) (subnetID : String) :
    Except String String :=
  match m.find? (fun kv => kv.1 = subnetID) with
  | some kv => .ok kv.2
  | none => .error ("subnetID not found on map: " ++ subnetID)

/-- The preload loop of `transformToElasticSubnets`: every spec must carry
a subnet ID, else the whole call fails before any transaction is issued. -/
def checkSubnetIDs : List ElasticSubnetSpec → Except String (List String)
  | [] => .ok []
  | spec :: rest =>
    match spec.subnetID with
    | none => .error "elastic subnet spec has no subnet ID"
    | some sid =>
      match checkSubnetIDs rest with
      | .error e => .error e
      | .ok sids => .ok (sid :: sids)

/-- Result of the transform workflow: the two ID lists the Go function
returns, the updated `subnetID2ElasticSubnetID` map, and the trace of
wallet operations issued, in order. -/
structure TransformResult where
  elasticSubnetIDs : List String
  assetIDs : List String
  subnetID2ElasticSubnetID : List (String × String)
  ops : List WalletOp
deriving DecidableEq, Repr

/-- The main loop of `transformToElasticSubnets` over (spec, subnet-ID)
pairs; `i` is the loop index and `m` the current
`subnetID2ElasticSubnetID` map.  Per spec: `getXChainAssetID` (create an
asset with denomination 9 and initial allocation `maxSupply` owned by the
wallet address), export it to the platform chain, re-import it, issue the
transform-subnet tx with the spec's economic parameters, and record
`subnetID -> transform tx ID`. -/
def transformLoop (walletAddr xChainID : String) (assetTxID transformTxID : Nat → String) :
    Nat → List (String × String) → List (ElasticSubnetSpec × String) → TransformResult
  | _, m, [] => ⟨[], [], m, []⟩
  | i, m, (spec, sid) :: rest =>
    let assetID := assetTxID i
    let txID := transformTxID i
    let opsHere : List WalletOp :=
      [WalletOp.createAsset spec.assetName spec.assetSymbol 9 spec.maxSupply walletAddr,
       WalletOp.exportToPChain assetID spec.maxSupply walletAddr,
       WalletOp.importFromXChain xChainID walletAddr,
       WalletOp.transformSubnet sid assetID spec]
    let r := transformLoop walletAddr xChainID assetTxID transformTxID
      (i + 1) (assocSet sid txID m) rest
    ⟨txID :: r.elasticSubnetIDs, assetID :: r.assetIDs, r.subnetID2ElasticSubnetID,
      opsHere ++ r.ops⟩

/-- Function `transformToElasticSubnets`: validate all subnet IDs, then run
the per-spec loop. -/
def transformToElasticSubnets (walletAddr xChainID : String)
    (assetTxID transformTxID : Nat → String) (m0 : List (String × String))
    (specs : List ElasticSubnetSpec) : Except String TransformResult :=
  match checkSubnetIDs specs with
  | .error e => .error e
  | .ok sids =>
    .ok (transformLoop walletAddr xChainID assetTxID transformTxID 0 m0 (specs.zip sids))

theorem checkSubnetIDs_error {specs : List ElasticSubnetSpec}
    (h : ∃ spec ∈ specs, spec.subnetID = none) :
    checkSubnetIDs specs = .error "elastic subnet spec has no subnet ID" := by
  induction specs with
  | nil => obtain ⟨spec, hmem, _⟩ := h; cases hmem
  | cons s rest ih =>
    obtain ⟨spec, hmem, hnone⟩ := h
    rcases List.mem_cons.mp hmem with hmem | hmem
    · subst hmem
      simp only [checkSubnetIDs, hnone]
    · cases hs : s.subnetID with
      | none => simp only [checkSubnetIDs, hs]
      | some sid =>
        simp only [checkSubnetIDs, hs, ih ⟨spec, hmem, hnone⟩]

theorem checkSubnetIDs_length {specs : List ElasticSubnetSpec} {sids : List String}
    (h : checkSubnetIDs specs = .ok sids) : sids.length = specs.length := by
  induction specs generalizing sids with
  | nil => cases h; rfl
  | cons s rest ih =>
    unfold checkSubnetIDs at h
    cases hs : s.subnetID with
    | none => rw [hs] at h; cases h
    | some sid =>
      rw [hs] at h
      cases hrest : checkSubnetIDs rest with
      | error e => rw [hrest] at h; cases h
      | ok sids' =>
        rw [hrest] at h
        cases h
        simp [ih hrest]

theorem assocSet_find_self (k v : String) (m : List (String × String)) :
    (assocSet k v m).find? (fun kv => kv.1 = k) = some (k, v) := by
  simp [assocSet, List.find?]

theorem assocSet_find_other {k k' : String} (hne : k' ≠ k) (v : String)
    (m : List (String × String)) :
    (assocSet k v m).find? (fun kv => kv.1 = k') = m.find? (fun kv => kv.1 = k') := by
  simp only [assocSet, List.find?]
  rw [decide_eq_false (fun h => hne h.symm)]

theorem transformLoop_ids (w x : String) (a t : Nat → String) :
    ∀ (pairs : List (ElasticSubnetSpec × String)) (i : Nat) (m : List (String × String)),
      (transformLoop w x a t i m pairs).elasticSubnetIDs
          = (List.range' i pairs.length).map t ∧
      (transformLoop w x a t i m pairs).assetIDs = (List.range' i pairs.length).map a := by
  intro pairs
  induction pairs with
  | nil => intro i m; exact ⟨rfl, rfl⟩
  | cons p rest ih =>
    intro i m
    obtain ⟨spec, sid⟩ := p
    obtain ⟨h1, h2⟩ := ih (i + 1) (assocSet sid (t i) m)
    constructor
    · show t i :: (transformLoop w x a t (i + 1) (assocSet sid (t i) m) rest).elasticSubnetIDs
          = (List.range' i (rest.length + 1)).map t
      rw [h1, List.range'_succ, List.map_cons]
    · show a i :: (transformLoop w x a t (i + 1) (assocSet sid (t i) m) rest).assetIDs
          = (List.range' i (rest.length + 1)).map a
      rw [h2, List.range'_succ, List.map_cons]

theorem transformLoop_ops (w x : String) (a t : Nat → String) :
    ∀ (pairs : List (ElasticSubnetSpec × String)) (j i : Nat)
      (m : List (String × String)) (spec : ElasticSubnetSpec) (sid : String),
      pairs[j]? = some (spec, sid) →
      WalletOp.createAsset spec.assetName spec.assetSymbol 9 spec.maxSupply w
          ∈ (transformLoop w x a t i m pairs).ops ∧
      WalletOp.exportToPChain (a (i + j)) spec.maxSupply w
          ∈ (transformLoop w x a t i m pairs).ops ∧
      WalletOp.importFromXChain x w ∈ (transformLoop w x a t i m pairs).ops ∧
      WalletOp.transformSubnet sid (a (i + j)) spec
          ∈ (transformLoop w x a t i m pairs).ops := by
  intro pairs
  induction pairs with
  | nil => intro j i m spec sid h; simp at h
  | cons p rest ih =>
    intro j i m spec sid h
    obtain ⟨qs, qsid⟩ := p
    cases j with
    | zero =>
      simp only [List.getElem?_cons_zero, Option.some.injEq, Prod.mk.injEq] at h
      obtain ⟨rfl, rfl⟩ := h
      rw [Nat.add_zero]
      refine ⟨?_, ?_, ?_, ?_⟩ <;> simp [transformLoop]
    | succ j =>
      simp only [List.getElem?_cons_succ] at h
      have hadd : i + (j + 1) = (i + 1) + j := by omega
      obtain ⟨h1, h2, h3, h4⟩ := ih j (i + 1) (assocSet qsid (t i) m) spec sid h
      rw [hadd]
      simp only [transformLoop]
      exact ⟨List.mem_append_right _ h1, List.mem_append_right _ h2,
        List.mem_append_right _ h3, List.mem_append_right _ h4⟩

theorem transformLoop_map_preserve (w x : String) (a t : Nat → String) :
    ∀ (pairs : List (ElasticSubnetSpec × String)) (i : Nat)
      (m : List (String × String)) (k : String), (∀ pr ∈ pairs, pr.2 ≠ k) →
      (transformLoop w x a t i m pairs).subnetID2ElasticSubnetID.find? (fun kv => kv.1 = k)
        = m.find? (fun kv => kv.1 = k) := by
  intro pairs
  induction pairs with
  | nil => intro i m k _; rfl
  | cons p rest ih =>
    intro i m k hk
    obtain ⟨spec, sid⟩ := p
    have hsid : sid ≠ k := hk (spec, sid) (List.mem_cons_self _ _)
    show (transformLoop w x a t (i + 1) (assocSet sid (t i) m) rest).subnetID2ElasticSubnetID.find?
        (fun kv => kv.1 = k) = _
    rw [ih (i + 1) (assocSet sid (t i) m) k (fun pr hpr => hk pr (List.mem_cons_of_mem _ hpr))]
    exact assocSet_find_other (fun h => hsid h.symm) (t i) m

theorem transformLoop_map_lookup (w x : String) (a t : Nat → String) :
    ∀ (pairs : List (ElasticSubnetSpec × String)) (j i : Nat)
      (m : List (String × String)) (spec : ElasticSubnetSpec) (sid : String),
      (pairs.map Prod.snd).Nodup →
      pairs[j]? = some (spec, sid) →
      (transformLoop w x a t i m pairs).subnetID2ElasticSubnetID.find? (fun kv => kv.1 = sid)
        = some (sid, t (i + j)) := by
  intro pairs
  induction pairs with
  | nil => intro j i m spec sid _ h; simp at h
  | cons p rest ih =>
    intro j i m spec sid hnd h
    obtain ⟨qs, qsid⟩ := p
    cases j with
    | zero =>
      simp only [List.getElem?_cons_zero, Option.some.injEq, Prod.mk.injEq] at h
      obtain ⟨rfl, rfl⟩ := h
      simp only [List.map_cons, List.nodup_cons] at hnd
      have hnot : ∀ pr ∈ rest, pr.2 ≠ qsid := by
        intro pr hpr hEq
        exact hnd.1 (hEq ▸ List.mem_map_of_mem Prod.snd hpr)
      show (transformLoop w x a t (i + 1) (assocSet qsid (t i) m) rest).subnetID2ElasticSubnetID.find?
          (fun kv => kv.1 = qsid) = _
      rw [transformLoop_map_preserve w x a t rest (i + 1) (assocSet qsid (t i) m) qsid hnot]
      rw [Nat.add_zero]
      exact assocSet_find_self qsid (t i) m
    | succ j =>
      simp only [List.getElem?_cons_succ] at h
      have hadd : i + (j + 1) = (i + 1) + j := by omega
      rw [hadd]
      simp only [List.map_cons, List.nodup_cons] at hnd
      exact ih j (i + 1) (assocSet qsid (t i) m) spec sid hnd.2 h

/-- Claim C8: for specs that all carry a subnet ID, the transform workflow
issues, per spec, a create-asset tx with denomination 9 and initial
allocation equal to the spec's max supply owned by the wallet address, an
export of that asset to the platform chain, an import, and a
transform-subnet tx binding the subnet to the asset with the spec's
economic parameters; it returns the transform tx IDs, and records
`subnetID -> transform tx ID` so that `GetElasticSubnetID` on that subnet
returns exactly that tx ID (for distinct subnet IDs).  A spec with a nil
subnet ID makes the whole call fail. -/
theorem C8_elastic_transform (walletAddr xChainID : String)
    (assetTxID transformTxID : Nat → String) (m0 : List (String × String))
    (specs : List ElasticSubnetSpec) :
    ((∃ spec ∈ specs, spec.subnetID = none) →
        transformToElasticSubnets walletAddr xChainID assetTxID transformTxID m0 specs
          = .error "elastic subnet spec has no subnet ID") ∧
    (∀ sids, checkSubnetIDs specs = .ok sids →
        transformToElasticSubnets walletAddr xChainID assetTxID transformTxID m0 specs
          = .ok (transformLoop walletAddr xChainID assetTxID transformTxID 0 m0
              (specs.zip sids)) ∧
        (transformLoop walletAddr xChainID assetTxID transformTxID 0 m0
            (specs.zip sids)).elasticSubnetIDs
          = (List.range' 0 specs.length).map transformTxID ∧
        (transformLoop walletAddr xChainID assetTxID transformTxID 0 m0
            (specs.zip sids)).assetIDs
          = (List.range' 0 specs.length).map assetTxID ∧
        ∀ (j : Nat) (spec : ElasticSubnetSpec) (sid : String),
          (specs.zip sids)[j]? = some (spec, sid) →
          (WalletOp.createAsset spec.assetName spec.assetSymbol 9 spec.maxSupply walletAddr
              ∈ (transformLoop walletAddr xChainID assetTxID transformTxID 0 m0
                  (specs.zip sids)).ops ∧
           WalletOp.exportToPChain (assetTxID j) spec.maxSupply walletAddr
              ∈ (transformLoop walletAddr xChainID assetTxID transformTxID 0 m0
                  (specs.zip sids)).ops ∧
           WalletOp.importFromXChain xChainID walletAddr
              ∈ (transformLoop walletAddr xChainID assetTxID transformTxID 0 m0
                  (specs.zip sids)).ops ∧
           WalletOp.transformSubnet sid (assetTxID j) spec
              ∈ (transformLoop walletAddr xChainID assetTxID transformTxID 0 m0
                  (specs.zip sids)).ops) ∧
          (sids.Nodup →
            GetElasticSubnetID
                (transformLoop walletAddr xChainID assetTxID transformTxID 0 m0
                  (specs.zip sids)).subnetID2ElasticSubnetID sid
              = .ok (transformTxID j))) := by
  constructor
  · intro h
    unfold transformToElasticSubnets
    rw [checkSubnetIDs_error h]
  · intro sids hok
    have hlen : (specs.zip sids).length = specs.length := by
      rw [List.length_zip, checkSubnetIDs_length hok, Nat.min_self]
    refine ⟨?_, ?_, ?_, ?_⟩
    · unfold transformToElasticSubnets
      rw [hok]
    · rw [(transformLoop_ids walletAddr xChainID assetTxID transformTxID
        (specs.zip sids) 0 m0).1, hlen]
    · rw [(transformLoop_ids walletAddr xChainID assetTxID transformTxID
        (specs.zip sids) 0 m0).2, hlen]
    · intro j spec sid hj
      constructor
      · have := transformLoop_ops walletAddr xChainID assetTxID transformTxID
          (specs.zip sids) j 0 m0 spec sid hj
        simpa using this
      · intro hnd
        have hsnd : (specs.zip sids).map Prod.snd = sids := by
          apply List.map_snd_zip
          rw [checkSubnetIDs_length hok]
        have hnd' : ((specs.zip sids).map Prod.snd).Nodup := by rw [hsnd]; exact hnd
        have := transformLoop_map_lookup walletAddr xChainID assetTxID transformTxID
          (specs.zip sids) j 0 m0 spec sid hnd' hj
        unfold GetElasticSubnetID
        rw [this]
        simp

/-- Witness for C8 at one concrete spec: the created asset has denomination
9 and allocation 100 to the wallet address, and `GetElasticSubnetID` on the
subnet returns the recorded transform tx ID. -/
theorem C8_elastic_transform_witness :
    WalletOp.createAsset "nm" "sym" 9 100 "addr"
        ∈ (transformLoop "addr" "X" (fun _ => "asset0") (fun _ => "tx0") 0 []
            ([(⟨some "s1", "nm", "sym", 1, 100, 0, 0, 0, 0, 0, 0, 0, 0, 0, 0⟩ :
                ElasticSubnetSpec)].zip ["s1"])).ops ∧
    GetElasticSubnetID
        (transformLoop "addr" "X" (fun _ => "asset0") (fun _ => "tx0") 0 []
            ([(⟨some "s1", "nm", "sym", 1, 100, 0, 0, 0, 0, 0, 0, 0, 0, 0, 0⟩ :
                ElasticSubnetSpec)].zip ["s1"])).subnetID2ElasticSubnetID "s1"
      = .ok "tx0" :=
  ⟨((((C8_elastic_transform "addr" "X" (fun _ => "asset0") (fun _ => "tx0") []
        [⟨some "s1", "nm", "sym", 1, 100, 0, 0, 0, 0, 0, 0, 0, 0, 0, 0⟩]).2
        ["s1"] rfl).2.2.2 0
        ⟨some "s1", "nm", "sym", 1, 100, 0, 0, 0, 0, 0, 0, 0, 0, 0, 0⟩ "s1" rfl).1).1,
   (((C8_elastic_transform "addr" "X" (fun _ => "asset0") (fun _ => "tx0") []
        [⟨some "s1", "nm", "sym", 1, 100, 0, 0, 0, 0, 0, 0, 0, 0, 0, 0⟩]).2
        ["s1"] rfl).2.2.2 0
        ⟨some "s1", "nm", "sym", 1, 100, 0, 0, 0, 0, 0, 0, 0, 0, 0, 0⟩ "s1" rfl).2
        (by decide)⟩
/-! ## Provisioning wait loops (local/blockchain.go,
`waitPrimaryValidators`, `waitSubnetValidators`,
`waitForCustomChainsReady`)

Each iteration first evaluates its readiness condition (a network fetch
that may fail), returns on success, and otherwise blocks on a `select`
over three cases: `<-ln.onStopCh` (return `errAborted`), `<-ctx.Done()`
(return `ctx.Err()`), and the poll timer.  Go's `select` chooses
uniformly at random among the cases that are ready, so the case taken is
nondeterministic: it is resolved by a scheduler oracle `sched`, and
`selectAdmissible` characterises the schedules Go can produce — a case
can be taken only when its channel is ready at that iteration, and the
poll timer only when neither the stop channel nor the context is ready
when the select starts (an already-ready channel completes the select
before the 1 s timer can fire).  Channel states per iteration are the
oracle `ChanEnv`, as are the validator sets and log files observed, and
a fuel bound replaces the unbounded `for` loop. -/

/-- Outcome of a wait loop. -/
inductive WaitResult where
  | ok
  | aborted
  | ctxCanceled
  | failed (msg : String)
  | fuelExhausted
deriving DecidableEq, Repr

/-- Channel readiness per iteration: `stopReady k` (`ln.onStopCh` is
closed) and `ctxDone k` (the caller context is done) at iteration `k`. -/
structure ChanEnv where
  stopReady : Nat → Bool
  ctxDone : Nat → Bool

/-- The select case taken at one iteration. -/
inductive SelectCase where
  | stopCh
  | ctxDone
  | timer
deriving DecidableEq, Repr

/-- The schedules Go's randomized `select` can produce against channel
states `env`: a channel case only when that channel is ready, the timer
only when neither channel is. -/
def selectAdmissible (env : ChanEnv) (sched : Nat → SelectCase) : Prop :=
  ∀ k, (sched k = SelectCase.stopCh → env.stopReady k = true) ∧
    (sched k = SelectCase.ctxDone → env.ctxDone k = true) ∧
    (sched k = SelectCase.timer → env.stopReady k = false ∧ env.ctxDone k = false)

/-- The common loop skeleton: check readiness (possibly failing), then
take whichever select case the schedule resolves to. -/
def waitLoop (ready : Nat → Except String Bool) (sched : Nat → SelectCase) (k : Nat) :
    Nat → WaitResult
  | 0 => .fuelExhausted
  | fuel + 1 =>
    match ready k with
    | .error e => .failed e
    | .ok true => .ok
    | .ok false =>
      match sched k with
      | .stopCh => .aborted
      | .ctxDone => .ctxCanceled
      | .timer => waitLoop ready sched (k + 1) fuel

/-- The loop is still blocking at iteration `k`: not ready through `k`,
and neither channel fired before `k`. -/
def blocksThrough (ready : Nat → Except String Bool) (env : ChanEnv) (k : Nat) : Prop :=
  (∀ j, j ≤ k → ready j = .ok false) ∧
  (∀ j, j < k → env.stopReady j = false ∧ env.ctxDone j = false)

theorem waitLoop_select_aux (ready : Nat → Except String Bool) (env : ChanEnv)
    (sched : Nat → SelectCase) (hadm : selectAdmissible env sched) :
    ∀ (d i fuel : Nat), (∀ j, i ≤ j → j ≤ i + d → ready j = .ok false) →
      (∀ j, i ≤ j → j < i + d → env.stopReady j = false ∧ env.ctxDone j = false) →
      (env.stopReady (i + d) = true ∨ env.ctxDone (i + d) = true) →
      d < fuel →
      (sched (i + d) = SelectCase.stopCh ∧ waitLoop ready sched i fuel = .aborted) ∨
      (sched (i + d) = SelectCase.ctxDone ∧
        waitLoop ready sched i fuel = .ctxCanceled) := by
  intro d
  induction d with
  | zero =>
    intro i fuel hready hquiet hsig hfuel
    obtain ⟨f, rfl⟩ : ∃ f, fuel = f + 1 := ⟨fuel - 1, by omega⟩
    rw [Nat.add_zero] at hsig ⊢
    cases hs : sched i with
    | stopCh =>
      left
      refine ⟨rfl, ?_⟩
      rw [waitLoop, hready i (le_refl i) (by omega), hs]
    | ctxDone =>
      right
      refine ⟨rfl, ?_⟩
      rw [waitLoop, hready i (le_refl i) (by omega), hs]
    | timer =>
      obtain ⟨h1, h2⟩ := (hadm i).2.2 hs
      rcases hsig with h | h
      · rw [h1] at h; cases h
      · rw [h2] at h; cases h
  | succ d ih =>
    intro i fuel hready hquiet hsig hfuel
    obtain ⟨f, rfl⟩ : ∃ f, fuel = f + 1 := ⟨fuel - 1, by omega⟩
    have hq0 := hquiet i (le_refl i) (by omega)
    have hs : sched i = SelectCase.timer := by
      cases hs : sched i with
      | stopCh =>
        have := (hadm i).1 hs
        rw [hq0.1] at this; cases this
      | ctxDone =>
        have := (hadm i).2.1 hs
        rw [hq0.2] at this; cases this
      | timer => rfl
    have hw : waitLoop ready sched i (f + 1) = waitLoop ready sched (i + 1) f := by
      rw [waitLoop, hready i (le_refl i) (by omega), hs]
    rw [hw]
    have hadd : i + (d + 1) = (i + 1) + d := by omega
    rw [hadd] at hsig ⊢
    exact ih (i + 1) f (fun j h1 h2 => hready j (by omega) (by omega))
      (fun j h1 h2 => hquiet j (by omega) (by omega)) hsig (by omega)

/-- The observable outcomes of one blocked select under any admissible
schedule: only the stop channel signaled forces `aborted`; only the
context done forces the context error; both signaled allows either. -/
theorem waitLoop_select {ready : Nat → Except String Bool} {env : ChanEnv}
    {sched : Nat → SelectCase} {k fuel : Nat} (hadm : selectAdmissible env sched)
    (hblock : blocksThrough ready env k) (hfuel : k < fuel) :
    (env.stopReady k = true ∧ env.ctxDone k = false →
        waitLoop ready sched 0 fuel = .aborted) ∧
    (env.stopReady k = false ∧ env.ctxDone k = true →
        waitLoop ready sched 0 fuel = .ctxCanceled) ∧
    (env.stopReady k = true ∧ env.ctxDone k = true →
        waitLoop ready sched 0 fuel = .aborted ∨
        waitLoop ready sched 0 fuel = .ctxCanceled) := by
  obtain ⟨hready, hquiet⟩ := hblock
  have haux : env.stopReady k = true ∨ env.ctxDone k = true →
      (sched k = SelectCase.stopCh ∧ waitLoop ready sched 0 fuel = .aborted) ∨
      (sched k = SelectCase.ctxDone ∧ waitLoop ready sched 0 fuel = .ctxCanceled) := by
    intro hsig
    have := waitLoop_select_aux ready env sched hadm k 0 fuel
      (fun j _ hj => hready j (by omega)) (fun j _ hj => hquiet j (by omega))
      (by simpa using hsig) (by omega)
    simpa using this
  refine ⟨?_, ?_, ?_⟩
  · rintro ⟨h1, h2⟩
    rcases haux (Or.inl h1) with ⟨hs, hr⟩ | ⟨hs, hr⟩
    · exact hr
    · have := (hadm k).2.1 hs
      rw [h2] at this; cases this
  · rintro ⟨h1, h2⟩
    rcases haux (Or.inr h2) with ⟨hs, hr⟩ | ⟨hs, hr⟩
    · have := (hadm k).1 hs
      rw [h1] at this; cases this
    · exact hr
  · rintro ⟨h1, h2⟩
    rcases haux (Or.inl h1) with ⟨hs, hr⟩ | ⟨hs, hr⟩
    · exact Or.inl hr
    · exact Or.inr hr

/-- Readiness of `waitPrimaryValidators` at iteration `k`:
`GetCurrentValidators(primary)` (the oracle `validatorsAt k`, which may
fail) must contain every node's ID. -/
def primaryReadyStep (nodes : List VNode)
    (validatorsAt : Nat → Except String (List String)) (k : Nat) : Except String Bool :=
  match validatorsAt k with
  | .error e => .error e
  | .ok vs => .ok (nodes.all (fun n => vs.contains n.nodeID))

/-- Function `waitPrimaryValidators` from local/blockchain.go, with the
select resolved by the schedule `sched`. -/
def waitPrimaryValidators (nodes : List VNode)
    (validatorsAt : Nat → Except String (List String)) (sched : Nat → SelectCase)
    (fuel : Nat) : WaitResult :=
  waitLoop (primaryReadyStep nodes validatorsAt) sched 0 fuel

/-- The participant scan of `waitSubnetValidators`: a missing participant
is an error; otherwise true iff every participant's node ID validates. -/
def checkParticipantsValidating (nodes : List VNode) (vs : List String) :
    List String → Except String Bool
  | [] => .ok true
  | p :: ps =>
    match nodes.find? (fun n => n.name = p) with
    | none => .error ("participant node " ++ p ++ " is not in network nodes")
    | some n =>
      match checkParticipantsValidating nodes vs ps with
      | .error e => .error e
      | .ok restOk => .ok (vs.contains n.nodeID && restOk)

/-- Readiness of `waitSubnetValidators` at iteration `k`: scan the
(subnet-ID, spec) pairs, fetching each subnet's current validators
(`validatorsAt sid k`); stop the scan at the first subnet that is not
ready (the source `break`s). -/
def subnetReadyScan (nodes : List VNode)
    (validatorsAt : String → Nat → Except String (List String)) (k : Nat) :
    List (String × SubnetSpec) → Except String Bool
  | [] => .ok true
  | (sid, spec) :: rest =>
    match validatorsAt sid k with
    | .error e => .error e
    | .ok vs =>
      match checkParticipantsValidating nodes vs spec.participants with
      | .error e => .error e
      | .ok true => subnetReadyScan nodes validatorsAt k rest
      | .ok false => .ok false

/-- Function `waitSubnetValidators` from local/blockchain.go, with the
select resolved by the schedule `sched`. -/
def waitSubnetValidators (nodes : List VNode) (subnetIDs : List String)
    (subnetSpecs : List SubnetSpec)
    (validatorsAt : String → Nat → Except String (List String))
    (sched : Nat → SelectCase) (fuel : Nat) : WaitResult :=
  waitLoop (fun k => subnetReadyScan nodes validatorsAt k (subnetIDs.zip subnetSpecs))
    sched 0 fuel

/-- The chain-name / VM-ID / subnet-ID / blockchain-ID record
(`blockchainInfo` in local/blockchain.go). -/
structure BlockchainInfoL where
  chainName : String
  vmID : String
  subnetID : String
  blockchainID : String
deriving DecidableEq, Repr

/-- The (blockchain-ID, node-name) pairs whose log files
`waitForCustomChainsReady` polls, in iteration order: for each chain info,
the subnet's validator node names (oracle `subnetValidatorNames`), paused
nodes skipped. -/
def customChainPairs (chainInfos : List BlockchainInfoL) (paused : String → Bool)
    (subnetValidatorNames : String → List String) : List (String × String) :=
  chainInfos.flatMap fun ci =>
    ((subnetValidatorNames ci.subnetID).filter (fun nm => !paused nm)).map
      (fun nm => (ci.blockchainID, nm))

/-- The per-file wait loops of `waitForCustomChainsReady`, run in order;
`fileExists pr k` is the `os.Stat` observation for pair `pr` at its
iteration `k`, and each file's loop has its own select schedule. -/
def waitFilesLoop (fileExists : String × String → Nat → Bool)
    (schedFor : String × String → Nat → SelectCase) (fuel : Nat) :
    List (String × String) → WaitResult
  | [] => .ok
  | pr :: rest =>
    match waitLoop (fun k => .ok (fileExists pr k)) (schedFor pr) 0 fuel with
    | .ok => waitFilesLoop fileExists schedFor fuel rest
    | r => r

/-- Function `waitForCustomChainsReady` from local/blockchain.go (its
initial health barrier and validator-name fetches abstracted into the
`subnetValidatorNames` oracle). -/
def waitForCustomChainsReady (chainInfos : List BlockchainInfoL) (paused : String → Bool)
    (subnetValidatorNames : String → List String)
    (fileExists : String × String → Nat → Bool)
    (schedFor : String × String → Nat → SelectCase) (fuel : Nat) : WaitResult :=
  waitFilesLoop fileExists schedFor fuel
    (customChainPairs chainInfos paused subnetValidatorNames)

theorem waitFilesLoop_reaches {fileExists : String × String → Nat → Bool}
    {schedFor : String × String → Nat → SelectCase} {fuel : Nat} :
    ∀ {done : List (String × String)} {pr : String × String}
      {rest : List (String × String)} {r : WaitResult},
      (∀ q ∈ done, waitLoop (fun k => .ok (fileExists q k)) (schedFor q) 0 fuel = .ok) →
      waitLoop (fun k => .ok (fileExists pr k)) (schedFor pr) 0 fuel = r → r ≠ .ok →
      waitFilesLoop fileExists schedFor fuel (done ++ pr :: rest) = r := by
  intro done
  induction done with
  | nil =>
    intro pr rest r _ hr hne
    rw [List.nil_append, waitFilesLoop, hr]
    cases r <;> first | rfl | exact absurd rfl hne
  | cons q done ih =>
    intro pr rest r hdone hr hne
    rw [List.cons_append, waitFilesLoop, hdone q (List.mem_cons_self _ _)]
    exact ih (fun q' hq' => hdone q' (List.mem_cons_of_mem _ hq')) hr hne

/-- Counterexample to claim C4 as stated: the select does not check the
three channels in order.  With the stop channel signaled at every
iteration and the caller context also done, the schedule that takes the
context case is admissible for Go's randomized select, and under it the
loop returns the context error, not `aborted` — even though the
cluster-stop channel is signaled. -/
theorem C4_counterexample :
    selectAdmissible ⟨fun _ => true, fun _ => true⟩ (fun _ => SelectCase.ctxDone) ∧
    ChanEnv.stopReady ⟨fun _ => true, fun _ => true⟩ 0 = true ∧
    waitPrimaryValidators [⟨"n", "id"⟩] (fun _ => Except.ok [])
        (fun _ => SelectCase.ctxDone) 1 = .ctxCanceled ∧
    waitPrimaryValidators [⟨"n", "id"⟩] (fun _ => Except.ok [])
        (fun _ => SelectCase.ctxDone) 1 ≠ .aborted := by
  refine ⟨?_, rfl, rfl, by decide⟩
  intro k
  refine ⟨fun h => ?_, fun _ => rfl, fun h => ?_⟩ <;> simp at h

/-- Claim C4 amended: each provisioning wait loop blocks on a select over
the cluster-stop channel, the caller context, and the poll timer; Go's
select takes a ready case at random, not in order.  Under every
admissible resolution of that choice: a loop that blocks with only the
stop channel signaled returns the `aborted` error; with only the caller
context done it returns the context's error; and with both signaled it
returns one of those two.  This holds for `waitPrimaryValidators`,
`waitSubnetValidators`, and for the file polls of
`waitForCustomChainsReady` (ending the whole workflow with that error). -/
theorem C4_wait_loop_channels_amended :
    (∀ (nodes : List VNode) (validatorsAt : Nat → Except String (List String))
        (env : ChanEnv) (sched : Nat → SelectCase) (k fuel : Nat),
      selectAdmissible env sched →
      blocksThrough (primaryReadyStep nodes validatorsAt) env k → k < fuel →
      (env.stopReady k = true ∧ env.ctxDone k = false →
          waitPrimaryValidators nodes validatorsAt sched fuel = .aborted) ∧
      (env.stopReady k = false ∧ env.ctxDone k = true →
          waitPrimaryValidators nodes validatorsAt sched fuel = .ctxCanceled) ∧
      (env.stopReady k = true ∧ env.ctxDone k = true →
          waitPrimaryValidators nodes validatorsAt sched fuel = .aborted ∨
          waitPrimaryValidators nodes validatorsAt sched fuel = .ctxCanceled)) ∧
    (∀ (nodes : List VNode) (subnetIDs : List String) (subnetSpecs : List SubnetSpec)
        (validatorsAt : String → Nat → Except String (List String))
        (env : ChanEnv) (sched : Nat → SelectCase) (k fuel : Nat),
      selectAdmissible env sched →
      blocksThrough
        (fun k => subnetReadyScan nodes validatorsAt k (subnetIDs.zip subnetSpecs))
        env k → k < fuel →
      (env.stopReady k = true ∧ env.ctxDone k = false →
          waitSubnetValidators nodes subnetIDs subnetSpecs validatorsAt sched fuel
            = .aborted) ∧
      (env.stopReady k = false ∧ env.ctxDone k = true →
          waitSubnetValidators nodes subnetIDs subnetSpecs validatorsAt sched fuel
            = .ctxCanceled) ∧
      (env.stopReady k = true ∧ env.ctxDone k = true →
          waitSubnetValidators nodes subnetIDs subnetSpecs validatorsAt sched fuel
            = .aborted ∨
          waitSubnetValidators nodes subnetIDs subnetSpecs validatorsAt sched fuel
            = .ctxCanceled)) ∧
    (∀ (chainInfos : List BlockchainInfoL) (paused : String → Bool)
        (subnetValidatorNames : String → List String)
        (fileExists : String × String → Nat → Bool)
        (envFor : String × String → ChanEnv)
        (schedFor : String × String → Nat → SelectCase) (fuel : Nat)
        (done : List (String × String)) (pr : String × String)
        (rest : List (String × String)) (k : Nat),
      customChainPairs chainInfos paused subnetValidatorNames = done ++ pr :: rest →
      (∀ q ∈ done, waitLoop (fun k => .ok (fileExists q k)) (schedFor q) 0 fuel = .ok) →
      selectAdmissible (envFor pr) (schedFor pr) →
      blocksThrough (fun k => .ok (fileExists pr k)) (envFor pr) k → k < fuel →
      ((envFor pr).stopReady k = true ∧ (envFor pr).ctxDone k = false →
          waitForCustomChainsReady chainInfos paused subnetValidatorNames fileExists
            schedFor fuel = .aborted) ∧
      ((envFor pr).stopReady k = false ∧ (envFor pr).ctxDone k = true →
          waitForCustomChainsReady chainInfos paused subnetValidatorNames fileExists
            schedFor fuel = .ctxCanceled) ∧
      ((envFor pr).stopReady k = true ∧ (envFor pr).ctxDone k = true →
          waitForCustomChainsReady chainInfos paused subnetValidatorNames fileExists
            schedFor fuel = .aborted ∨
          waitForCustomChainsReady chainInfos paused subnetValidatorNames fileExists
            schedFor fuel = .ctxCanceled)) := by
  refine ⟨?_, ?_, ?_⟩
  · intro nodes validatorsAt env sched k fuel hadm hblock hfuel
    exact waitLoop_select hadm hblock hfuel
  · intro nodes subnetIDs subnetSpecs validatorsAt env sched k fuel hadm hblock hfuel
    exact waitLoop_select hadm hblock hfuel
  · intro chainInfos paused subnetValidatorNames fileExists envFor schedFor fuel done pr
      rest k hsplit hdone hadm hblock hfuel
    obtain ⟨hstop, hctx, hboth⟩ := waitLoop_select hadm hblock hfuel
    refine ⟨?_, ?_, ?_⟩
    · intro h
      unfold waitForCustomChainsReady
      rw [hsplit]
      exact waitFilesLoop_reaches hdone (hstop h) (by simp)
    · intro h
      unfold waitForCustomChainsReady
      rw [hsplit]
      exact waitFilesLoop_reaches hdone (hctx h) (by simp)
    · intro h
      unfold waitForCustomChainsReady
      rw [hsplit]
      rcases hboth h with hr | hr
      · exact Or.inl (waitFilesLoop_reaches hdone hr (by simp))
      · exact Or.inr (waitFilesLoop_reaches hdone hr (by simp))

/-- Witness for C4's amended theorem: with only the stop channel signaled
(the context never done) the only admissible schedule takes the stop case,
and each of the three loops returns `aborted`. -/
theorem C4_wait_loop_channels_amended_witness :
    waitPrimaryValidators [⟨"n", "id"⟩] (fun _ => Except.ok [])
        (fun _ => SelectCase.stopCh) 1 = .aborted ∧
    waitSubnetValidators [⟨"n", "id"⟩] ["s1"] [⟨["n"], none⟩] (fun _ _ => Except.ok [])
        (fun _ => SelectCase.stopCh) 1 = .aborted ∧
    waitForCustomChainsReady [⟨"c", "vm", "s1", "b1"⟩] (fun _ => false)
        (fun _ => ["n"]) (fun _ _ => false)
        (fun _ _ => SelectCase.stopCh) 1 = .aborted := by
  have hadm : selectAdmissible ⟨fun _ => true, fun _ => false⟩
      (fun _ => SelectCase.stopCh) := by
    intro k
    refine ⟨fun _ => rfl, fun h => ?_, fun h => ?_⟩ <;> simp at h
  refine ⟨?_, ?_, ?_⟩
  · exact (C4_wait_loop_channels_amended.1 [⟨"n", "id"⟩] (fun _ => Except.ok [])
      ⟨fun _ => true, fun _ => false⟩ (fun _ => SelectCase.stopCh) 0 1 hadm
      ⟨fun _ _ => rfl, fun j hj => absurd hj (Nat.not_lt_zero j)⟩ (by omega)).1
      ⟨rfl, rfl⟩
  · exact (C4_wait_loop_channels_amended.2.1 [⟨"n", "id"⟩] ["s1"] [⟨["n"], none⟩]
      (fun _ _ => Except.ok []) ⟨fun _ => true, fun _ => false⟩
      (fun _ => SelectCase.stopCh) 0 1 hadm
      ⟨fun _ _ => rfl, fun j hj => absurd hj (Nat.not_lt_zero j)⟩ (by omega)).1
      ⟨rfl, rfl⟩
  · exact (C4_wait_loop_channels_amended.2.2 [⟨"c", "vm", "s1", "b1"⟩] (fun _ => false)
      (fun _ => ["n"]) (fun _ _ => false) (fun _ => ⟨fun _ => true, fun _ => false⟩)
      (fun _ _ => SelectCase.stopCh) 1 [] ("b1", "n") [] 0 rfl
      (fun q hq => absurd hq (List.not_mem_nil q)) hadm
      ⟨fun _ _ => rfl, fun j hj => absurd hj (Nat.not_lt_zero j)⟩ (by omega)).1
      ⟨rfl, rfl⟩

/-! ## Rolling restart (local/blockchain.go, `restartNodes`)

The function iterates the registry's node names in sorted order; per node
it recomputes the tracked-subnets flag from the previous flag value and
the supplied specs, and restarts the node when a spec targets it (and it
is not paused).  Restarting a node and the final `ln.healthy(ctx)` barrier
are abstracted as succeeding; the restarted names are collected in order.
Since the flag map is mutated before any early `continue`, state changes
are modelled by threading the node list through the loop, and the
validation error is returned together with the (unchanged) state. -/

/-- The node-record fields `restartNodes` reads and writes:
`trackSubnets` is the value of `Flags[config.TrackSubnetsKey]` when the
key is present. -/
structure RNode where
  name : String
  paused : Bool
  trackSubnets : Option String
deriving DecidableEq, Repr

/-- Spec for removing subnet validators
(`network.RemoveSubnetValidatorSpec`). -/
structure RemoveSubnetValidatorSpec where
  subnetID : String
  nodeNames : List String
deriving DecidableEq, Repr

/-- `set.Set[string].Add` on a duplicate-free list. -/
def setAdd (s : String) (l : List String) : List String :=
  if s ∈ l then l else l ++ [s]

/-- `set.Set[string].Remove` on a duplicate-free list. -/
def setRemove (s : String) (l : List String) : List String :=
  l.filter (fun t => decide (t ≠ s))

/-- The previous tracked-subnets string split at commas; an empty value
contributes nothing (the source guards `previousTrackedSubnets != ""`). -/
def splitTrackedSubnets (prev : String) : List String :=
  if prev = "" then [] else splitComma prev

/-- The per-node body of `restartNodes`: rebuild the tracked-subnet set
from the previous flag value and the three spec lists, and decide whether
the specs target this node (`needsRestart` before the
blockchain-config-update check).  Returns the new flag value — the sorted,
comma-joined set — and that flag. -/
def nodeNewTrackedAndRestart (subnetPairs : List (String × SubnetSpec))
    (validatorSpecs : List PermissionlessValidatorSpec)
    (removeValidatorSpecs : List RemoveSubnetValidatorSpec) (n : RNode) :
    String × Bool :=
  let s0 := (splitTrackedSubnets (n.trackSubnets.getD "")).foldl
    (fun acc t => setAdd t acc) []
  let r1 := validatorSpecs.foldl
    (fun (acc : List String × Bool) vs =>
      if vs.nodeName = n.name then (setAdd vs.subnetID acc.1, true) else acc)
    (s0, false)
  let r2 := removeValidatorSpecs.foldl
    (fun (acc : List String × Bool) rs =>
      rs.nodeNames.foldl
        (fun (acc : List String × Bool) nm =>
          if nm = n.name then (setRemove rs.subnetID acc.1, true) else acc) acc)
    r1
  let r3 := subnetPairs.foldl
    (fun (acc : List String × Bool) pr =>
      pr.2.participants.foldl
        (fun (acc : List String × Bool) p =>
          if p = n.name then (setAdd pr.1 acc.1, true) else acc) acc)
    r2
  (joinComma (sortStrings r3.1), r3.2)

/-- Registry lookup `ln.nodes[nodeName]`. -/
def findRNode (nodes : List RNode) (nm : String) : Option RNode :=
  nodes.find? (fun n => n.name = nm)

/-- Write back a node record (keyed by name). -/
def updateRNode (nodes : List RNode) (n' : RNode) : List RNode :=
  nodes.map (fun m => if m.name = n'.name then n' else m)

/-- The main loop of `restartNodes` over the sorted node names: update
every node's tracked-subnets flag, and restart the node (collecting its
name, in order) when the specs target it, it is marked for a
blockchain-config update (only consulted when subnet specs were given),
and it is not paused. -/
def restartLoop (subnetPairs : List (String × SubnetSpec))
    (validatorSpecs : List PermissionlessValidatorSpec)
    (removeValidatorSpecs : List RemoveSubnetValidatorSpec)
    (subnetSpecsGiven : Bool) (cfgRestart : List String) :
    List String → List RNode → List RNode × List String
  | [], nodes => (nodes, [])
  | nm :: rest, nodes =>
    match findRNode nodes nm with
    | none =>
      restartLoop subnetPairs validatorSpecs removeValidatorSpecs subnetSpecsGiven
        cfgRestart rest nodes
    | some n =>
      let tr := nodeNewTrackedAndRestart subnetPairs validatorSpecs removeValidatorSpecs n
      let needs := tr.2 || (subnetSpecsGiven && cfgRestart.any (fun x => x = nm))
      let nodes' := updateRNode nodes { n with trackSubnets := some tr.1 }
      let res := restartLoop subnetPairs validatorSpecs removeValidatorSpecs
        subnetSpecsGiven cfgRestart rest nodes'
      (res.1, (if needs && !n.paused then [nm] else []) ++ res.2)

/-- Outcome of `restartNodes`: the updated registry, the restarted node
names in restart order, whether the final fleet-health barrier was
reached, and the validation error if any. -/
structure RestartResult where
  nodes : List RNode
  restarted : List String
  healthAwaited : Bool
  err : Option String
deriving DecidableEq, Repr

/-- Function `restartNodes` from local/blockchain.go: reject more than one
spec kind, else iterate the node names in sorted order and finish with the
fleet-health barrier. -/
def restartNodes (nodes : List RNode) (subnetIDs : List String)
    (subnetSpecs : Option (List SubnetSpec))
    (validatorSpecs : Option (List PermissionlessValidatorSpec))
    (removeValidatorSpecs : Option (List RemoveSubnetValidatorSpec))
    (nodesToRestartForBlockchainConfigUpdate : List String) : RestartResult :=
  if (subnetSpecs.isSome && validatorSpecs.isSome)
      || (subnetSpecs.isSome && removeValidatorSpecs.isSome)
      || (validatorSpecs.isSome && removeValidatorSpecs.isSome) then
    { nodes := nodes, restarted := [], healthAwaited := false,
      err := some "only one type of spec between subnet specs, add permissionless validator specs and remove validator specs can be supplied at one time" }
  else
    let res := restartLoop (subnetIDs.zip (subnetSpecs.getD []))
      (validatorSpecs.getD []) (removeValidatorSpecs.getD []) subnetSpecs.isSome
      nodesToRestartForBlockchainConfigUpdate
      (sortStrings (nodes.map RNode.name)) nodes
    { nodes := res.1, restarted := res.2, healthAwaited := true, err := none }

/-- How many of the three spec lists are non-nil. -/
def numSpecKinds (a b c : Bool) : Nat :=
  (if a then 1 else 0) + (if b then 1 else 0) + (if c then 1 else 0)

/-- Claim C3: when more than one of the three spec lists is non-nil,
`restartNodes` returns the validation error, restarts no node, changes no
node's tracked-subnets flag, and never reaches the health barrier. -/
theorem C3_restart_mutual_exclusion (nodes : List RNode) (subnetIDs : List String)
    (subnetSpecs : Option (List SubnetSpec))
    (validatorSpecs : Option (List PermissionlessValidatorSpec))
    (removeValidatorSpecs : Option (List RemoveSubnetValidatorSpec))
    (cfg : List String)
    (h : 1 < numSpecKinds subnetSpecs.isSome validatorSpecs.isSome
          removeValidatorSpecs.isSome) :
    restartNodes nodes subnetIDs subnetSpecs validatorSpecs removeValidatorSpecs cfg
      = { nodes := nodes, restarted := [], healthAwaited := false,
          err := some "only one type of spec between subnet specs, add permissionless validator specs and remove validator specs can be supplied at one time" } := by
  have hcond : ((subnetSpecs.isSome && validatorSpecs.isSome)
      || (subnetSpecs.isSome && removeValidatorSpecs.isSome)
      || (validatorSpecs.isSome && removeValidatorSpecs.isSome)) = true := by
    cases subnetSpecs <;> cases validatorSpecs <;> cases removeValidatorSpecs <;>
      simp_all [numSpecKinds]
  unfold restartNodes
  rw [hcond]
  rfl

/-- Witness for C3 at a concrete call with both subnet specs and
remove-validator specs supplied. -/
theorem C3_restart_mutual_exclusion_witness :
    restartNodes [⟨"node1", false, none⟩] ["s1"] (some [⟨["node1"], none⟩]) none
        (some [⟨"s1", ["node1"]⟩]) []
      = { nodes := [⟨"node1", false, none⟩], restarted := [], healthAwaited := false,
          err := some "only one type of spec between subnet specs, add permissionless validator specs and remove validator specs can be supplied at one time" } :=
  C3_restart_mutual_exclusion [⟨"node1", false, none⟩] ["s1"] (some [⟨["node1"], none⟩])
    none (some [⟨"s1", ["node1"]⟩]) [] (by decide)

/-- Whether one of the supplied specs targets node `nm` (or it is marked
for a blockchain-config update, when subnet specs were given) — the exact
condition under which `restartNodes` restarts a non-paused node. -/
def specTargets (subnetPairs : List (String × SubnetSpec))
    (validatorSpecs : List PermissionlessValidatorSpec)
    (removeValidatorSpecs : List RemoveSubnetValidatorSpec)
    (subnetSpecsGiven : Bool) (cfgRestart : List String) (nm : String) : Bool :=
  validatorSpecs.any (fun vs => vs.nodeName = nm)
    || removeValidatorSpecs.any (fun rs => rs.nodeNames.any (fun x => x = nm))
    || subnetPairs.any (fun pr => pr.2.participants.any (fun p => p = nm))
    || (subnetSpecsGiven && cfgRestart.any (fun x => x = nm))

theorem foldl_snd_or {α : Type} (step : List String × Bool → α → List String × Bool)
    (q : α → Bool) (hstep : ∀ acc x, (step acc x).2 = (acc.2 || q x)) :
    ∀ (l : List α) (acc : List String × Bool),
      (l.foldl step acc).2 = (acc.2 || l.any q) := by
  intro l
  induction l with
  | nil => intro acc; simp
  | cons x xs ih =>
    intro acc
    rw [List.foldl_cons, ih, hstep, List.any_cons, Bool.or_assoc]

theorem nodeNewTrackedAndRestart_snd (subnetPairs : List (String × SubnetSpec))
    (validatorSpecs : List PermissionlessValidatorSpec)
    (removeValidatorSpecs : List RemoveSubnetValidatorSpec) (n : RNode) :
    (nodeNewTrackedAndRestart subnetPairs validatorSpecs removeValidatorSpecs n).2
      = (validatorSpecs.any (fun vs => vs.nodeName = n.name)
          || removeValidatorSpecs.any (fun rs => rs.nodeNames.any (fun x => x = n.name))
          || subnetPairs.any (fun pr => pr.2.participants.any (fun p => p = n.name))) := by
  unfold nodeNewTrackedAndRestart
  have h1 := foldl_snd_or
    (fun (acc : List String × Bool) (vs : PermissionlessValidatorSpec) =>
      if vs.nodeName = n.name then (setAdd vs.subnetID acc.1, true) else acc)
    (fun vs => decide (vs.nodeName = n.name))
    (by
      intro acc vs
      by_cases h : vs.nodeName = n.name <;> simp [h])
    validatorSpecs
  have h2 := foldl_snd_or
    (fun (acc : List String × Bool) (rs : RemoveSubnetValidatorSpec) =>
      rs.nodeNames.foldl
        (fun (acc : List String × Bool) nm =>
          if nm = n.name then (setRemove rs.subnetID acc.1, true) else acc) acc)
    (fun rs => rs.nodeNames.any (fun x => decide (x = n.name)))
    (by
      intro acc rs
      exact foldl_snd_or _ (fun x => decide (x = n.name))
        (by
          intro acc' nm
          by_cases h : nm = n.name <;> simp [h])
        rs.nodeNames acc)
    removeValidatorSpecs
  have h3 := foldl_snd_or
    (fun (acc : List String × Bool) (pr : String × SubnetSpec) =>
      pr.2.participants.foldl
        (fun (acc : List String × Bool) p =>
          if p = n.name then (setAdd pr.1 acc.1, true) else acc) acc)
    (fun pr => pr.2.participants.any (fun p => decide (p = n.name)))
    (by
      intro acc pr
      exact foldl_snd_or _ (fun p => decide (p = n.name))
        (by
          intro acc' p
          by_cases h : p = n.name <;> simp [h])
        pr.2.participants acc)
    subnetPairs
  rw [h3, h2, h1]
  simp [Bool.or_assoc]

theorem findRNode_update_ne (nodes : List RNode) (n' : RNode) {nm : String}
    (h : n'.name ≠ nm) : findRNode (updateRNode nodes n') nm = findRNode nodes nm := by
  induction nodes with
  | nil => rfl
  | cons m rest ih =>
    unfold updateRNode at ih ⊢
    unfold findRNode at ih ⊢
    by_cases hm : m.name = n'.name
    · simp only [List.map_cons, if_pos hm, List.find?]
      rw [decide_eq_false h, decide_eq_false (fun hEq => h (hm ▸ hEq))]
      exact ih
    · simp only [List.map_cons, if_neg hm, List.find?]
      cases hdec : decide (m.name = nm)
      · exact ih
      · rfl

theorem findRNode_self {nodes : List RNode} (hnd : (nodes.map RNode.name).Nodup)
    {n : RNode} (hn : n ∈ nodes) : findRNode nodes n.name = some n := by
  induction nodes with
  | nil => cases hn
  | cons m rest ih =>
    simp only [List.map_cons, List.nodup_cons] at hnd
    rcases List.mem_cons.mp hn with hn | hn
    · subst hn
      unfold findRNode
      simp [List.find?]
    · have hne : m.name ≠ n.name := by
        intro hEq
        exact hnd.1 (hEq ▸ List.mem_map_of_mem RNode.name hn)
      unfold findRNode
      simp only [List.find?]
      rw [decide_eq_false hne]
      exact ih hnd.2 hn

theorem restartLoop_restarted (subnetPairs : List (String × SubnetSpec))
    (validatorSpecs : List PermissionlessValidatorSpec)
    (removeValidatorSpecs : List RemoveSubnetValidatorSpec)
    (subnetSpecsGiven : Bool) (cfgRestart : List String) :
    ∀ (names : List String) (nodes : List RNode), names.Nodup →
      (restartLoop subnetPairs validatorSpecs removeValidatorSpecs subnetSpecsGiven
          cfgRestart names nodes).2
        = names.filter (fun nm =>
            match findRNode nodes nm with
            | some n => !n.paused && specTargets subnetPairs validatorSpecs
                removeValidatorSpecs subnetSpecsGiven cfgRestart nm
            | none => false) := by
  intro names
  induction names with
  | nil => intro nodes _; rfl
  | cons nm rest ih =>
    intro nodes hnd
    obtain ⟨hnotmem, hndrest⟩ := List.nodup_cons.mp hnd
    cases hfind : findRNode nodes nm with
    | none =>
      simp only [restartLoop, hfind]
      rw [ih nodes hndrest, List.filter_cons]
      simp [hfind]
    | some n =>
      have hname : n.name = nm := by simpa using List.find?_some hfind
      simp only [restartLoop, hfind]
      rw [List.filter_cons]
      have hupd : ∀ nm' ∈ rest,
          findRNode (updateRNode nodes { n with trackSubnets := some (nodeNewTrackedAndRestart subnetPairs validatorSpecs removeValidatorSpecs n).1 }) nm'
            = findRNode nodes nm' := by
        intro nm' hm
        apply findRNode_update_ne
        show n.name ≠ nm'
        rw [hname]
        intro hEq
        exact hnotmem (hEq ▸ hm)
      have hrest := ih (updateRNode nodes { n with trackSubnets := some (nodeNewTrackedAndRestart subnetPairs validatorSpecs removeValidatorSpecs n).1 }) hndrest
      have hfiltereq := List.filter_congr (fun nm' hm => by
        simp only [hupd nm' hm] :
        ∀ nm' ∈ rest,
          (fun nm' => match findRNode (updateRNode nodes { n with trackSubnets := some (nodeNewTrackedAndRestart subnetPairs validatorSpecs removeValidatorSpecs n).1 }) nm' with
            | some k => !k.paused && specTargets subnetPairs validatorSpecs
                removeValidatorSpecs subnetSpecsGiven cfgRestart nm'
            | none => false) nm'
          = (fun nm' => match findRNode nodes nm' with
            | some k => !k.paused && specTargets subnetPairs validatorSpecs
                removeValidatorSpecs subnetSpecsGiven cfgRestart nm'
            | none => false) nm')
      have hneeds : ((nodeNewTrackedAndRestart subnetPairs validatorSpecs
            removeValidatorSpecs n).2
          || (subnetSpecsGiven && cfgRestart.any (fun x => x = nm)))
          = specTargets subnetPairs validatorSpecs removeValidatorSpecs
              subnetSpecsGiven cfgRestart nm := by
    
        rw [nodeNewTrackedAndRestart_snd, hname]
        unfold specTargets
        simp [Bool.or_assoc]
      rw [hneeds, hrest, hfiltereq]
      by_cases hcase : (!n.paused && specTargets subnetPairs validatorSpecs
          removeValidatorSpecs subnetSpecsGiven cfgRestart nm) = true
      · rw [if_pos (by rw [Bool.and_comm]; exact hcase)]
        simp [hfind, hcase]
      · rw [if_neg (by rw [Bool.and_comm]; exact hcase)]
        simp [hfind, hcase]

/-- Counterexample to claim C5 as stated: a permissionless-validator spec
naming a node that already tracks the spec's subnet makes `restartNodes`
restart that node even though its tracked-subnets flag value is unchanged
(and no chain config is touched): the registry after the call equals the
registry before it, yet the node was restarted. -/
theorem C5_counterexample :
    (restartNodes [⟨"node1", false, some "s1"⟩] [] none
        (some [⟨"s1", "node1", 0, "a", 0, 0⟩]) none []).nodes
      = [⟨"node1", false, some "s1"⟩] ∧
    (restartNodes [⟨"node1", false, some "s1"⟩] [] none
        (some [⟨"s1", "node1", 0, "a", 0, 0⟩]) none []).restarted ≠ [] := by
  decide

theorem restartNodes_ok_eq (nodes : List RNode) (subnetIDs : List String)
    (subnetSpecs : Option (List SubnetSpec))
    (validatorSpecs : Option (List PermissionlessValidatorSpec))
    (removeValidatorSpecs : Option (List RemoveSubnetValidatorSpec))
    (cfg : List String)
    (hcond : ((subnetSpecs.isSome && validatorSpecs.isSome)
      || (subnetSpecs.isSome && removeValidatorSpecs.isSome)
      || (validatorSpecs.isSome && removeValidatorSpecs.isSome)) = false) :
    restartNodes nodes subnetIDs subnetSpecs validatorSpecs removeValidatorSpecs cfg
      = { nodes := (restartLoop (subnetIDs.zip (subnetSpecs.getD []))
            (validatorSpecs.getD []) (removeValidatorSpecs.getD []) subnetSpecs.isSome
            cfg (sortStrings (nodes.map RNode.name)) nodes).1,
          restarted := (restartLoop (subnetIDs.zip (subnetSpecs.getD []))
            (validatorSpecs.getD []) (removeValidatorSpecs.getD []) subnetSpecs.isSome
            cfg (sortStrings (nodes.map RNode.name)) nodes).2,
          healthAwaited := true, err := none } := by
  unfold restartNodes
  rw [hcond]
  rfl

/-- Claim C5 amended: on a successful call (one spec kind at most),
`restartNodes` visits nodes one at a time in ascending byte-wise
lexicographic name order — the restarted names are strictly sorted —
restarts exactly the non-paused nodes that some supplied spec targets (or
that are marked for a blockchain-config update, when subnet specs were
given), skips paused nodes, and reaches the fleet-health barrier after the
whole batch.  (As stated, the claim is false: a targeted node is restarted
even when its tracked-subnets value does not change; see the
counterexample.) -/
theorem C5_restart_order_amended (nodes : List RNode) (subnetIDs : List String)
    (subnetSpecs : Option (List SubnetSpec))
    (validatorSpecs : Option (List PermissionlessValidatorSpec))
    (removeValidatorSpecs : Option (List RemoveSubnetValidatorSpec))
    (cfg : List String)
    (hnames : (nodes.map RNode.name).Nodup)
    (hok : (restartNodes nodes subnetIDs subnetSpecs validatorSpecs
        removeValidatorSpecs cfg).err = none) :
    (restartNodes nodes subnetIDs subnetSpecs validatorSpecs removeValidatorSpecs
        cfg).restarted.Pairwise strLt ∧
    (∀ nm ∈ (restartNodes nodes subnetIDs subnetSpecs validatorSpecs
        removeValidatorSpecs cfg).restarted,
      ∃ n, findRNode nodes nm = some n ∧ n.paused = false ∧
        specTargets (subnetIDs.zip (subnetSpecs.getD [])) (validatorSpecs.getD [])
          (removeValidatorSpecs.getD []) subnetSpecs.isSome cfg nm = true) ∧
    (∀ n ∈ nodes, n.paused = false →
        specTargets (subnetIDs.zip (subnetSpecs.getD [])) (validatorSpecs.getD [])
          (removeValidatorSpecs.getD []) subnetSpecs.isSome cfg n.name = true →
        n.name ∈ (restartNodes nodes subnetIDs subnetSpecs validatorSpecs
          removeValidatorSpecs cfg).restarted) ∧
    (restartNodes nodes subnetIDs subnetSpecs validatorSpecs removeValidatorSpecs
        cfg).healthAwaited = true := by
  cases hcond : ((subnetSpecs.isSome && validatorSpecs.isSome)
      || (subnetSpecs.isSome && removeValidatorSpecs.isSome)
      || (validatorSpecs.isSome && removeValidatorSpecs.isSome)) with
  | true =>
    exfalso
    unfold restartNodes at hok
    rw [hcond] at hok
    simp at hok
  | false =>
    have hR := restartNodes_ok_eq nodes subnetIDs subnetSpecs validatorSpecs
      removeValidatorSpecs cfg hcond
    have hfilter := restartLoop_restarted (subnetIDs.zip (subnetSpecs.getD []))
      (validatorSpecs.getD []) (removeValidatorSpecs.getD []) subnetSpecs.isSome cfg
      (sortStrings (nodes.map RNode.name)) nodes (sortStrings_nodup hnames)
    refine ⟨?_, ?_, ?_, ?_⟩
    · rw [hR]
      show ((restartLoop (subnetIDs.zip (subnetSpecs.getD [])) (validatorSpecs.getD [])
          (removeValidatorSpecs.getD []) subnetSpecs.isSome cfg
          (sortStrings (nodes.map RNode.name)) nodes).2).Pairwise strLt
      rw [hfilter]
      exact List.Pairwise.filter _ (sortStrings_pairwise_lt hnames)
    · intro nm hmem
      rw [hR] at hmem
      replace hmem : nm ∈ (restartLoop (subnetIDs.zip (subnetSpecs.getD []))
          (validatorSpecs.getD []) (removeValidatorSpecs.getD []) subnetSpecs.isSome cfg
          (sortStrings (nodes.map RNode.name)) nodes).2 := hmem
      rw [hfilter] at hmem
      obtain ⟨hmem1, hpred⟩ := List.mem_filter.mp hmem
      cases hf : findRNode nodes nm with
      | none => rw [hf] at hpred; simp at hpred
      | some n =>
        rw [hf] at hpred
        simp only [Bool.and_eq_true, Bool.not_eq_true'] at hpred
        exact ⟨n, rfl, hpred.1, hpred.2⟩
    · intro n hn hp ht
      rw [hR]
      show n.name ∈ (restartLoop (subnetIDs.zip (subnetSpecs.getD []))
          (validatorSpecs.getD []) (removeValidatorSpecs.getD []) subnetSpecs.isSome cfg
          (sortStrings (nodes.map RNode.name)) nodes).2
      rw [hfilter]
      apply List.mem_filter.mpr
      refine ⟨mem_sortStrings.mpr (List.mem_map_of_mem RNode.name hn), ?_⟩
      rw [findRNode_self hnames hn]
      simp [hp, ht]
    · rw [hR]

/-- Witness for C5's amended theorem: with one non-paused and one paused
node both named by permissionless-validator specs, the non-paused node is
restarted. -/
theorem C5_restart_order_amended_witness :
    ("a" : String) ∈ (restartNodes [⟨"a", false, none⟩, ⟨"b", true, none⟩] [] none
        (some [⟨"s1", "a", 0, "x", 0, 0⟩, ⟨"s1", "b", 0, "x", 0, 0⟩]) none []).restarted :=
  (C5_restart_order_amended [⟨"a", false, none⟩, ⟨"b", true, none⟩] [] none
      (some [⟨"s1", "a", 0, "x", 0, 0⟩, ⟨"s1", "b", 0, "x", 0, 0⟩]) none []
      (by decide) (by decide)).2.2.1 ⟨"a", false, none⟩ (by decide) rfl (by decide)

end Netrunner
